import Mathlib

/-!
Verification development for the critical-apparatus tooling of the
ephesians-thesis-supplement repository.

Python strings are modelled as `List Char`; Python dictionaries as
association lists in insertion order; Python sets as lists in iteration
order (noting that CPython's set iteration order for strings varies from
run to run under hash randomisation); a Python loop that may diverge is
modelled with explicit fuel, `none` meaning that the loop never exits;
a Python statement that raises an uncaught exception (`KeyError`,
`IndexError`, `ValueError`) is modelled by `none` in an `Option`-valued
translation.
-/

/-- Python strings, modelled as lists of characters. -/
abbrev Str := List Char

/-- Python's slice `s[:-k]` (used as `base_wit[:-len(suffix)]` in
`parse_wit`): for `k = 0` the slice is `s[:0] = ""`, otherwise it drops the
last `k` characters. -/
def pyTruncate (s : Str) (k : Nat) : Str :=
  if k = 0 then [] else s.take (s.length - k)

/-- Python's `str.strip(c)`: remove every leading and trailing occurrence of
the character `c`. -/
def pyStrip (c : Char) (s : Str) : Str :=
  ((s.dropWhile (fun a => a = c)).reverse.dropWhile (fun a => a = c)).reverse

/-- Helper for `pyWords`: accumulate the current word (reversed) while
scanning. -/
def pyWordsAux : Str → Str → List Str
  | [], acc => if acc = [] then [] else [acc.reverse]
  | c :: rest, acc =>
    if c = ' ' then
      if acc = [] then pyWordsAux rest []
      else acc.reverse :: pyWordsAux rest []
    else pyWordsAux rest (c :: acc)

/-- Python's `str.split()` with no argument: split on runs of whitespace,
dropping empty pieces (the documents only use plain spaces). -/
def pyWords (s : Str) : List Str := pyWordsAux s []

/-- Python's `str.split(c)` for a one-character separator: keeps empty
pieces, and splitting the empty string yields `[""]`. -/
def pySplit (c : Char) : Str → List Str
  | [] => [[]]
  | a :: rest =>
    match pySplit c rest with
    | h :: t => if a = c then [] :: h :: t else (a :: h) :: t
    | [] => if a = c then [[], []] else [[a]]

/-- Python's `sep.join(parts)`. -/
def joinSep (sep : Str) : List Str → Str
  | [] => []
  | [x] => x
  | x :: y :: rest => x ++ sep ++ joinSep sep (y :: rest)

/-- Python's `int(s)` restricted to the decimal-digit strings that occur in
the documents: `none` models the `ValueError` raised on anything else. -/
def parseNat (s : Str) : Option Nat :=
  if s = [] ∨ ¬ s.all (fun c => c.isDigit) then none
  else some (s.foldl (fun acc c => 10 * acc + (c.toNat - 48)) 0)

/-- Python's `int(s)` as an integer key (the numbers in the documents are
non-negative, so the value is the same as `parseNat`). -/
def parseInt (s : Str) : Option Int :=
  (parseNat s).map Int.ofNat

/-- Python's `set.add`, with the set modelled as a list in iteration
order: append the element when it is absent. -/
def setAdd (l : List Str) (x : Str) : List Str :=
  if x ∈ l then l else l ++ [x]

/-- Lookup in a Python dictionary modelled as an association list:
`none` is a `KeyError`. -/
def lookupA {β : Type} : List (Str × β) → Str → Option β
  | [], _ => none
  | p :: t, k => if p.1 = k then some p.2 else lookupA t k

/-- Write `v` at key `k` in an association list, updating every matching
entry and leaving the keys unchanged (the modelled code only ever writes to
keys that are already present). -/
def writeA {β : Type} (m : List (Str × β)) (k : Str) (v : β) : List (Str × β) :=
  m.map (fun p => if p.1 = k then (p.1, v) else p)

/-- Append `v` under key `k` of a Python `dict` of lists, creating the key
at the end (insertion order) when absent. -/
def appendA {β : Type} (m : List (Str × List β)) (k : Str) (v : β) :
    List (Str × List β) :=
  if (m.find? (fun p => decide (p.1 = k))).isSome then
    m.map (fun p => if p.1 = k then (p.1, p.2 ++ [v]) else p)
  else m ++ [(k, [v])]

/-- `mapM` over `Option`, written out so induction is immediate; `none`
propagates an exception or a diverging call. -/
def optMapM {α β : Type} (f : α → Option β) : List α → Option (List β)
  | [] => some []
  | a :: t =>
    match f a, optMapM f t with
    | some b, some bs => some (b :: bs)
    | _, _ => none

/-- `foldlM` over `Option`, written out so induction is immediate. -/
def optFoldl {α σ : Type} (f : σ → α → Option σ) : σ → List α → Option σ
  | s, [] => some s
  | s, a :: t =>
    match f s a with
    | some s' => optFoldl f s' t
    | none => none

/-- Lexicographic comparison of integer-tuple sort keys, exactly Python's
tuple comparison (a strict prefix is smaller). -/
def lexLe : List Int → List Int → Bool
  | [], _ => true
  | _ :: _, [] => false
  | a :: as, b :: bs => if a < b then true else if b < a then false else lexLe as bs

/-- Python's comparison of a pair of integer tuples (used for relation
sort keys): compare the first components, then the second. -/
def pairLe (p q : (List Int) × (List Int)) : Bool :=
  if p.1 = q.1 then lexLe p.2 q.2 else lexLe p.1 q.1

/-- Insert `x` into `l` before the first element `y` with `le x y`; the
building block of the stable sort. -/
def insertSorted {α : Type} (le : α → α → Bool) (x : α) : List α → List α
  | [] => [x]
  | y :: ys => if le x y then x :: y :: ys else y :: insertSorted le x ys

/-- Stable insertion sort; it computes the same list as CPython's stable
`sorted` for any total preorder `le`. -/
def sortByKeys {α : Type} (le : α → α → Bool) : List α → List α
  | [] => []
  | x :: xs => insertSorted le x (sortByKeys le xs)

/-- A reading (or witness-detail) as the citation-handling scripts see it:
its number attribute `n` and its raw `wit` attribute. -/
structure Rdg where
  n : Str
  wit : Str
deriving DecidableEq

/-! ## src/py/negative_to_positive_apparatus.py -/

namespace NegPos

/-- One iteration step of `parse_wit` (negative_to_positive_apparatus.py,
lines 22-35): scan `suffixes` in order for the first one the current siglum
ends with; strip it and record it, or stop.  The `while True` loop may
diverge (an empty registered suffix is re-matched forever), so the model
carries fuel; `none` means the loop never exits. -/
def parse_wit_go (suffixes : List Str) : Nat → Str → List Str → Option (Str × List Str)
  | 0, _, _ => none
  | fuel + 1, base_wit, wit_suffixes =>
    match suffixes.find? (fun s => decide (s <:+ base_wit)) with
    | some suffix =>
      parse_wit_go suffixes fuel (pyTruncate base_wit suffix.length)
        (suffix :: wit_suffixes)
    | none => some (base_wit, wit_suffixes)

/-- `parse_wit(wit, suffixes)` of negative_to_positive_apparatus.py: the
fuel `wit.length + 1` is enough for every terminating run, because each
iteration strips a non-empty suffix. -/
def parse_wit (wit : Str) (suffixes : List Str) : Option (Str × List Str) :=
  parse_wit_go suffixes (wit.length + 1) wit []

/-- `re.match` of the Gregory-Aland pattern `^[LP]*\d+S*` (line 16): the
string must start with some `L`/`P` characters followed by a digit. -/
def witness_pattern_match (w : Str) : Bool :=
  match w.dropWhile (fun c => decide (c = 'L' ∨ c = 'P')) with
  | [] => false
  | c :: _ => c.isDigit

/-- The sort key computed for one witness in `get_sorted_wits` (lines
50-70): the index of the base siglum followed by the indices of its
suffixes; `some (Except.error _)` models the `KeyError` caught by
`convert_app`, and `none` a diverging `parse_wit` call. -/
def wit_key (wit_ind_map suffix_ind_map : List Str) (wit : Str) :
    Option (Except Unit (List Int)) :=
  if witness_pattern_match wit then
    match parse_wit wit suffix_ind_map with
    | none => none
    | some (base_wit, wit_suffixes) =>
      match List.indexOf? base_wit wit_ind_map with
      | none => some (Except.error ())
      | some i =>
        match optMapM (fun s => List.indexOf? s suffix_ind_map) wit_suffixes with
        | none => some (Except.error ())
        | some is => some (Except.ok ((i :: is).map Int.ofNat))
  else
    match List.indexOf? wit wit_ind_map with
    | none => some (Except.error ())
    | some i => some (Except.ok [Int.ofNat i])

/-- The `keys_by_wit` dictionary of `get_sorted_wits`, one key per listed
witness, failing at the first unresolvable witness exactly as the Python
loop raises there. -/
def keys_by_wit (wit_ind_map suffix_ind_map : List Str) :
    List Str → Option (Except Unit (List (Str × List Int)))
  | [] => some (Except.ok [])
  | w :: ws =>
    match wit_key wit_ind_map suffix_ind_map w with
    | none => none
    | some (Except.error e) => some (Except.error e)
    | some (Except.ok k) =>
      match keys_by_wit wit_ind_map suffix_ind_map ws with
      | none => none
      | some (Except.error e) => some (Except.error e)
      | some (Except.ok rest) => some (Except.ok ((w, k) :: rest))

/-- `get_sorted_wits(wits, wit_ind_map, suffix_ind_map)` (lines 50-72):
stable sort of the witness list by the composite keys. -/
def get_sorted_wits (wit_ind_map suffix_ind_map : List Str) (wits : List Str) :
    Option (Except Unit (List Str)) :=
  match keys_by_wit wit_ind_map suffix_ind_map wits with
  | none => none
  | some (Except.error e) => some (Except.error e)
  | some (Except.ok keyed) =>
    some (Except.ok
      ((sortByKeys (fun p q => lexLe p.2 q.2) keyed).map (fun p => p.1)))

/-- Python's `s.replace("rell", rep)` (line 99), with fuel (the scan
consumes at least one character per step, so `s.length + 1` is enough). -/
def replace_rell_go (rep : Str) : Nat → Str → Str
  | 0, s => s
  | fuel + 1, s =>
    if ("rell".toList) <+: s then rep ++ replace_rell_go rep fuel (s.drop 4)
    else
      match s with
      | [] => []
      | c :: t => c :: replace_rell_go rep fuel t

/-- Python's `s.replace("rell", rep)`: replace every non-overlapping
occurrence, scanning left to right. -/
def replace_rell (rep s : Str) : Str := replace_rell_go rep (s.length + 1) s

/-- The first pass of `convert_app` (lines 82-94): the set of base
witnesses cited (with or without suffixes) in any reading or
witness-detail of the unit; `rell` is skipped, manuscript sigla are
decomposed, everything else is added as-is. -/
def base_wits_cited (suffix_ind_map : List Str) (rdgs : List Rdg) :
    Option (List Str) :=
  optFoldl (fun acc r =>
    optFoldl (fun acc2 w =>
      if w = ("rell".toList) then some acc2
      else if witness_pattern_match w then
        match parse_wit w suffix_ind_map with
        | none => none
        | some (base_wit, _) => some (setAdd acc2 base_wit)
      else some (setAdd acc2 w)) acc (pyWords r.wit)) [] rdgs

/-- The uncited-witness list substituted for `rell` (line 96): canonical
witnesses, in canonical order, that are not in the cited set. -/
def uncited_wits (wit_ind_map : List Str) (cited : List Str) : List Str :=
  wit_ind_map.filter (fun w => decide (w ∉ cited))

/-- The body of `convert_app`'s per-reading loop (lines 97-105):
substitute `rell`, then try to sort; on a caught exception keep the
substituted list and report `(app_id, rdg_n)`. -/
def process_rdg_conv (wit_ind_map suffix_ind_map : List Str) (uncited_str : Str)
    (app_id : Str) (r : Rdg) : Option (Rdg × Option (Str × Str)) :=
  match get_sorted_wits wit_ind_map suffix_ind_map
      (pyWords (replace_rell uncited_str r.wit)) with
  | none => none
  | some (Except.ok sorted) =>
    some (⟨r.n, joinSep (" ".toList) sorted⟩, none)
  | some (Except.error _) =>
    some (⟨r.n, replace_rell uncited_str r.wit⟩, some (app_id, r.n))

/-- `convert_app(xml, wit_ind_map, suffix_ind_map)` (lines 79-106) on one
unit: returns the rewritten readings and the list of error reports
`(unit id, reading number)` printed by the except-branch. -/
def convert_app (wit_ind_map suffix_ind_map : List Str) (app_id : Str)
    (rdgs : List Rdg) : Option (List Rdg × List (Str × Str)) :=
  match base_wits_cited suffix_ind_map rdgs with
  | none => none
  | some cited =>
    match optMapM (process_rdg_conv wit_ind_map suffix_ind_map
        (joinSep (" ".toList) (uncited_wits wit_ind_map cited)) app_id) rdgs with
    | none => none
    | some results =>
      some (results.map (fun p => p.1), results.filterMap (fun p => p.2))

/-- `convert_negative_to_positive_apparatus` (lines 112-124): every `app`
element of the document is converted in turn. -/
def convert_negative_to_positive_apparatus (wit_ind_map suffix_ind_map : List Str)
    (apps : List (Str × List Rdg)) :
    Option (List (List Rdg × List (Str × Str))) :=
  optMapM (fun a => convert_app wit_ind_map suffix_ind_map a.1 a.2) apps

/-- The post-substitution citation string of one reading (line 99): the
`rell` token replaced by the uncited-witness list. -/
def substituted (wit_ind_map cited : List Str) (r : Rdg) : Str :=
  replace_rell (joinSep (" ".toList) (uncited_wits wit_ind_map cited)) r.wit

end NegPos

/-! ## src/py/validate_collation.py -/

namespace Validate

/-- One of the five role loops of `parse_wit` (validate_collation.py,
lines 20-40): the first element of `role` that the current siglum ends
with, or the previously selected suffix. -/
def pick_suffix (role : List Str) (base_wit : Str) (cur : Str) : Str :=
  match role.find? (fun s => decide (s <:+ base_wit)) with
  | some s => s
  | none => cur

/-- The suffix selected by one iteration of `parse_wit`'s loop: the five
role lists are scanned in order and a match in a later role list
overrides an earlier one; the default is the empty string. -/
def select_suffix (fh mt co al mu : List Str) (base_wit : Str) : Str :=
  pick_suffix mu base_wit (pick_suffix al base_wit (pick_suffix co base_wit
    (pick_suffix mt base_wit (pick_suffix fh base_wit []))))

/-- The loop of `parse_wit` (lines 19-44): if the selected suffix is empty
the loop breaks (so, unlike the single-list variant, a registered empty
suffix ends the loop rather than looping forever), otherwise the suffix is
stripped and recorded. -/
def parse_wit_go (fh mt co al mu : List Str) :
    Nat → Str → List Str → Option (Str × List Str)
  | 0, _, _ => none
  | fuel + 1, base_wit, suffixes =>
    let suffix := select_suffix fh mt co al mu base_wit
    if suffix.length = 0 then some (base_wit, suffixes)
    else
      parse_wit_go fh mt co al mu fuel (pyTruncate base_wit suffix.length)
        (suffix :: suffixes)

/-- `parse_wit(wit, first_hand_suffixes, ..., multiple_suffixes)` of
validate_collation.py (lines 16-45). -/
def parse_wit (wit : Str) (fh mt co al mu : List Str) : Option (Str × List Str) :=
  parse_wit_go fh mt co al mu (wit.length + 1) wit []

/-- A finding printed by `find_unmatched_witness_pairs`, by message
category (lines 203, 209, 238, 240, 242, 244, 246). -/
inductive Report where
  | solo (subwit : Str) (rdg : Str)
  | baseAlongside (base_wit : Str) (rdg : Str) (others : List Str)
  | firstHandNoCorrector (subwit : Str) (rdg : Str)
  | correctorNoFirstHand (subwit : Str) (rdg : Str)
  | mainTextNoAlternate (subwit : Str) (rdg : Str)
  | alternateNoMainText (subwit : Str) (rdg : Str)
  | multipleNoOther (subwit : Str) (rdg : Str)
deriving DecidableEq

/-- The two dictionaries built by `find_unmatched_witness_pairs` (lines
184-195): reading numbers by full siglum, and suffix lists by base
witness, both in insertion order. -/
def gather (fh mt co al mu : List Str) (rdgs : List Rdg) :
    Option (List (Str × List Str) × List (Str × List (List Str))) :=
  optFoldl (fun maps r =>
    optFoldl (fun m2 w =>
      match parse_wit w fh mt co al mu with
      | none => none
      | some (base_wit, suffixes) =>
        some (appendA m2.1 w r.n, appendA m2.2 base_wit suffixes))
      maps (pyWords r.wit))
    ([], []) rdgs

/-- The five role-compatibility tests of lines 220-234. -/
def compatible (fh mt co al mu : List Str) (s o : Str) : Bool :=
  (decide (s ∈ fh) && decide (o ∈ co)) || (decide (s ∈ co) && decide (o ∈ fh)) ||
  (decide (s ∈ mt) && decide (o ∈ al)) || (decide (s ∈ al) && decide (o ∈ mt)) ||
  (decide (s ∈ mu) && decide (o ∈ mu))

/-- The inner matching loop (lines 212-234): some other suffix list has, at
the same position, a different suffix of a compatible role. -/
def suffix_matched (fh mt co al mu : List Str)
    (suffix_lists : List (List Str)) (i : Nat) (suffix : Str) : Bool :=
  suffix_lists.any (fun other =>
    match other.drop i with
    | [] => false
    | o :: _ => if o = suffix then false else compatible fh mt co al mu suffix o)

/-- The reports printed for one unmatched suffix, in the order of the five
`if` statements of lines 237-246 (a suffix registered under several roles
produces several reports, as in the source). -/
def unmatched_reports (fh mt co al mu : List Str) (subwit rdg suffix : Str) :
    List Report :=
  (if suffix ∈ fh then [Report.firstHandNoCorrector subwit rdg] else []) ++
  (if suffix ∈ co then [Report.correctorNoFirstHand subwit rdg] else []) ++
  (if suffix ∈ mt then [Report.mainTextNoAlternate subwit rdg] else []) ++
  (if suffix ∈ al then [Report.alternateNoMainText subwit rdg] else []) ++
  (if suffix ∈ mu then [Report.multipleNoOther subwit rdg] else [])

/-- The body of the `for suffix_list in suffix_lists` loop (lines
206-246).  The `others` list of the base-alongside report filters on
`len(suffix_list) > 0` — the *outer* loop variable, which is empty in that
branch — reproducing the source, whose list is therefore always empty. -/
def reports_for_suffix_list (fh mt co al mu : List Str)
    (rdgs_by_wit : List (Str × List Str)) (suffix_lists : List (List Str))
    (base_wit : Str) (suffix_list : List Str) : Option (List Report) :=
  let base_report : Option (List Report) :=
    if suffix_list.length = 0 then
      match lookupA rdgs_by_wit base_wit with
      | none => none
      | some rdg_list =>
        match rdg_list.head? with
        | none => none
        | some rdg =>
          some [Report.baseAlongside base_wit rdg
            (((suffix_lists.filter (fun _ => decide (suffix_list.length > 0))).map
              (fun other => base_wit ++ joinSep [] other)))]
    else some []
  match base_report with
  | none => none
  | some base_reports =>
    let subwit := base_wit ++ joinSep [] suffix_list
    optFoldl (fun acc p =>
      if suffix_matched fh mt co al mu suffix_lists p.1 p.2 then some acc
      else
        match lookupA rdgs_by_wit subwit with
        | none => none
        | some rl =>
          match rl.head? with
          | none => none
          | some rdg =>
            some (acc ++ unmatched_reports fh mt co al mu subwit rdg p.2))
      base_reports suffix_list.enum

/-- The body of the `for base_wit in suffixes_by_base_wit` loop (lines
197-246): a single non-empty suffix list is reported as a lone subwitness
and skipped; otherwise every suffix list is checked for matches. -/
def reports_for_base (fh mt co al mu : List Str)
    (rdgs_by_wit : List (Str × List Str)) (base_wit : Str) :
    List (List Str) → Option (List Report)
  | [sl] =>
    if sl.length ≠ 0 then
      let subwit := base_wit ++ joinSep [] sl
      match lookupA rdgs_by_wit subwit with
      | none => none
      | some rl =>
        match rl.head? with
        | none => none
        | some rdg => some [Report.solo subwit rdg]
    else some []
  | suffix_lists =>
    optFoldl (fun acc sl =>
      match reports_for_suffix_list fh mt co al mu rdgs_by_wit suffix_lists
          base_wit sl with
      | none => none
      | some rs => some (acc ++ rs)) [] suffix_lists

/-- `find_unmatched_witness_pairs` (lines 180-247) restricted to one
`app` element: the ordered list of findings it prints for that unit. -/
def find_unmatched_witness_pairs (fh mt co al mu : List Str) (rdgs : List Rdg) :
    Option (List Report) :=
  match gather fh mt co al mu rdgs with
  | none => none
  | some (rdgs_by_wit, suffixes_by_base_wit) =>
    optFoldl (fun acc p =>
      match reports_for_base fh mt co al mu rdgs_by_wit p.1 p.2 with
      | none => none
      | some rs => some (acc ++ rs)) [] suffixes_by_base_wit

end Validate

/-! ## src/py/merge_variation_units.py -/

namespace Merge

/-- `LAC_SYMBOL` (line 18). -/
def LAC : Str := "Z".toList

/-- The loop of `Collation.get_base_wit` (lines 49-65) on the reversed
siglum: strip the final character until the siglum is in the witness list
or no character is left, in which case the empty string is returned. -/
def get_base_wit_rev (witnesses : List Str) : Str → Str
  | [] => []
  | c :: rest =>
    if (c :: rest).reverse ∈ witnesses then (c :: rest).reverse
    else get_base_wit_rev witnesses rest

/-- `Collation.get_base_wit(wit)` (lines 49-65): the recursion works on the
reversed siglum so that stripping the final character is structural. -/
def get_base_wit (witnesses : List Str) (wit : Str) : Str :=
  get_base_wit_rev witnesses wit.reverse

/-- `rdg.get("wit").replace("#", "").split()` (lines 155, 199). -/
def rdg_wits (wit_attr : Str) : List Str :=
  pyWords (wit_attr.filter (fun c => decide (c ≠ '#')))

/-- The removal loop of lines 170-174: remove the first registered siglum
that is a strict substring of the new siglum, then stop. -/
def remove_first_strict_sub : List Str → Str → List Str
  | [], _ => []
  | s :: rest, wit =>
    if s ≠ wit ∧ s <:+: wit then rest else s :: remove_first_strict_sub rest wit

/-- Lines 162-176: skip the new siglum when it is a strict substring of a
registered one; otherwise remove the first registered strict substring of
it and add it to the set (modelled as a list in iteration order). -/
def add_siglum (sigla : List Str) (wit : Str) : List Str :=
  if sigla.any (fun s => decide (wit <:+: s ∧ s ≠ wit)) then sigla
  else
    let pruned := remove_first_strict_sub sigla wit
    if wit ∈ pruned then pruned else pruned ++ [wit]

/-- One citation's contribution to `sigla_by_base_witness` (lines
156-176): a bare base siglum is skipped; a suffixed one is added under its
base, and `none` models the `KeyError` raised when the stripped base (the
empty string, reported at line 159) is not a key of the dictionary. -/
def sigla_step (witnesses : List Str) (m : List (Str × List Str)) (wit : Str) :
    Option (List (Str × List Str)) :=
  let base_wit := get_base_wit witnesses wit
  if wit = base_wit then some m
  else
    match lookupA m base_wit with
    | none => none
    | some sigla => some (writeA m base_wit (add_siglum sigla wit))

/-- `sigla_by_base_witness` (lines 149-176): the suffixed sigla registered
under each base witness, over all selected variation units. -/
def sigla_by_base_witness (witnesses : List Str)
    (units : List (List (Str × Str))) : Option (List (Str × List Str)) :=
  optFoldl (fun m u =>
    optFoldl (fun m2 r =>
      optFoldl (fun m3 w => sigla_step witnesses m3 w) m2 (rdg_wits r.2)) m u)
    (witnesses.map (fun w => (w, ([] : List Str)))) units

/-- Lines 177-187 for a single variation unit's column of
`reading_lists_by_siglum`: one lacuna-initialised entry per registered
siglum, or per base witness when it has no registered sigla. -/
def reading_lists_init (witnesses : List Str) (sigla : List (Str × List Str)) :
    Option (List (Str × Str)) :=
  optFoldl (fun acc base_wit =>
    match lookupA sigla base_wit with
    | none => none
    | some [] => some (acc ++ [(base_wit, LAC)])
    | some l => some (acc ++ l.map (fun s => (s, LAC)))) [] witnesses

/-- Lines 200-210 for one citation: a siglum with its own entry is set
directly; otherwise every registered siglum of its base that contains it
as a substring is set; `none` models the `KeyError` on a base that is not
a key. -/
def fill_wit (witnesses : List Str) (sigla : List (Str × List Str))
    (st : List (Str × Str)) (rdg_id wit : Str) : Option (List (Str × Str)) :=
  if (lookupA st wit).isSome then
    some (writeA st wit rdg_id)
  else
    match lookupA sigla (get_base_wit witnesses wit) with
    | none => none
    | some l =>
      some (l.foldl (fun s siglum =>
        if wit <:+: siglum then writeA s siglum rdg_id else s) st)

/-- Lines 189-210 for one variation unit: every reading's citations are
applied in document order, each assignment overwriting the previous value
of the entry it touches. -/
def fill_unit (witnesses : List Str) (sigla : List (Str × List Str))
    (unit : List (Str × Str)) (st : List (Str × Str)) :
    Option (List (Str × Str)) :=
  optFoldl (fun s r =>
    optFoldl (fun s2 w => fill_wit witnesses sigla s2 r.1 w) s (rdg_wits r.2))
    st unit

/-- Line 222: the sigla of one merged group, stably sorted by the
canonical index of their base witness alone (so sigla sharing a base keep
their iteration order); `none` models the `KeyError` on an unresolvable
base. -/
def sort_group_wits (witnesses : List Str) (group : List Str) :
    Option (List Str) :=
  match optMapM (fun w => List.indexOf? (get_base_wit witnesses w) witnesses) group with
  | none => none
  | some keys =>
    some ((sortByKeys (fun p q => decide (p.2 ≤ q.2)) (group.zip keys)).map
      (fun p => p.1))

end Merge

/-! ## src/py/transpose_variant_readings.py -/

namespace Transpose

/-- A `relation` element: `active` and `passive` reference lists and the
`ana` attribute. -/
structure Relation where
  active : List Str
  passive : List Str
  ana : Option Str
deriving DecidableEq

/-- A child of an `app` element as `process_app` dispatches on it: lemma,
reading, witness-detail (its `certainty` children modelled by their
`target` attributes), note (its `listRelation` children), or an XML
comment. -/
inductive Child where
  | lem (content : Str)
  | rdg (n : Str) (idOpt : Option Str) (typ : Option Str) (wit content : Str)
  | witDetail (typ : Option Str) (n : Str) (idOpt : Option Str) (wit : Str)
      (targets : List Str) (certainties : List Str)
  | note (rels : List (List Relation))
  | comment (text : Str)
deriving DecidableEq

/-- The old-number-to-new-number dictionary (`transposition_dict`). -/
abbrev TMap := List (Str × Str)

/-- `reading_reference_key(rdg_str)` (lines 102-106): the reading number of
a reference, `none` modelling the uncaught `IndexError`/`ValueError` on a
reference that is neither `#...R<number>` nor a plain number. -/
def reading_reference_key (rdg_str : Str) : Option Int :=
  match rdg_str with
  | [] => none
  | c :: _ =>
    if c = '#' then
      match pySplit 'R' rdg_str with
      | _ :: p1 :: _ => parseInt p1
      | _ => none
    else parseInt rdg_str

/-- Integer comparison as a Boolean, for the sort keys. -/
def intLe (a b : Int) : Bool := decide (a ≤ b)

/-- Python's `sorted(l, key=key)`: all keys are computed first (raising on
the first failure), then the list is stably sorted by them. -/
def sort_by_key_opt {α K : Type} (key : α → Option K) (le : K → K → Bool)
    (l : List α) : Option (List α) :=
  match optMapM (fun a =>
      match key a with
      | none => none
      | some k => some (a, k)) l with
  | none => none
  | some keyed =>
    some ((sortByKeys (fun p q => le p.2 q.2) keyed).map (fun p => p.1))

/-- `process_rdg` (lines 118-130): remap the first dash-part of `n`, then
splice the new `n` into the second `R`-part of the `xml:id` if there is
one. -/
def process_rdg (dict : TMap) (n : Str) (idOpt : Option Str) (typ : Option Str)
    (wit content : Str) : Option Child :=
  match pySplit '-' n with
  | [] => none
  | first :: tail =>
    match lookupA dict first with
    | none => none
    | some v =>
      let n' := joinSep ("-".toList) (v :: tail)
      match idOpt with
      | none => some (Child.rdg n' none typ wit content)
      | some id =>
        match pySplit 'R' id with
        | p0 :: _ :: rest =>
          some (Child.rdg n' (some (joinSep ("R".toList) (p0 :: n' :: rest)))
            typ wit content)
        | _ => none

/-- `process_certainty` (lines 135-143): after the `#`-branch rebuilds the
reference, line 142 unconditionally looks the (rebuilt) reference up in
the dictionary, so a `#`-reference raises a `KeyError` (`none`). -/
def process_certainty (dict : TMap) (target : Str) : Option Str :=
  match target with
  | [] => none
  | c :: _ =>
    let t : Option Str :=
      if c = '#' then
        match pySplit 'R' (pyStrip '#' target) with
        | p0 :: p1 :: rest =>
          match lookupA dict p1 with
          | some v => some ('#' :: joinSep ("R".toList) (p0 :: v :: rest))
          | none => none
        | _ => none
      else some target
    match t with
    | none => none
    | some t' => lookupA dict t'

/-- The target-rewriting branch of `process_wit_detail` (lines 166-175):
a `#`-reference keeps its `#`, a plain reference is replaced by its
mapped number. -/
def map_target_wit_detail (dict : TMap) (target : Str) : Option Str :=
  match target with
  | [] => none
  | c :: _ =>
    if c = '#' then
      match pySplit 'R' (pyStrip '#' target) with
      | p0 :: p1 :: rest =>
        match lookupA dict p1 with
        | some v => some ('#' :: joinSep ("R".toList) (p0 :: v :: rest))
        | none => none
      | _ => none
    else lookupA dict target

/-- The target-rewriting of `process_relation` (lines 191-199, 203-211):
identical to the witness-detail branch except that the rebuilt
`#`-reference is *not* given back its leading `#`. -/
def map_target_relation (dict : TMap) (target : Str) : Option Str :=
  match target with
  | [] => none
  | c :: _ =>
    if c = '#' then
      match pySplit 'R' (pyStrip '#' target) with
      | p0 :: p1 :: rest =>
        match lookupA dict p1 with
        | some v => some (joinSep ("R".toList) (p0 :: v :: rest))
        | none => none
      | _ => none
    else lookupA dict target

/-- `process_wit_detail` (lines 149-184): remap and sort the `/`-separated
numbers of the first dash-part of `n`, splice the new `n` into the
`xml:id`, remap and sort the `target` references, and remap and sort the
`certainty` children. -/
def process_wit_detail (dict : TMap) (typ : Option Str) (n : Str)
    (idOpt : Option Str) (wit : Str) (targets certainties : List Str) :
    Option Child :=
  match pySplit '-' n with
  | [] => none
  | first :: tail =>
    match optMapM (fun t => lookupA dict t) (pySplit '/' (pyStrip 'W' first)) with
    | none => none
    | some mapped =>
      match sort_by_key_opt reading_reference_key intLe mapped with
      | none => none
      | some sorted_targets =>
        let n' := joinSep ("-".toList)
          ((("W".toList) ++ joinSep ("/".toList) sorted_targets) :: tail)
        let idRes : Option (Option Str) :=
          match idOpt with
          | none => some none
          | some id =>
            match pySplit 'R' id with
            | p0 :: _ :: rest =>
              some (some (joinSep ("R".toList) (p0 :: n' :: rest)))
            | _ => none
        match idRes with
        | none => none
        | some id' =>
          match optMapM (map_target_wit_detail dict) targets with
          | none => none
          | some targets' =>
            match sort_by_key_opt reading_reference_key intLe targets' with
            | none => none
            | some targetsS =>
              match optMapM (process_certainty dict) certainties with
              | none => none
              | some certs' =>
                match (if certs'.length > 0 then
                    sort_by_key_opt reading_reference_key intLe certs'
                  else some certs') with
                | none => none
                | some certsS =>
                  some (Child.witDetail typ n' id' wit targetsS certsS)

/-- The passive-list loop of `process_relation` (lines 203-213).  The
`sorted` call at line 212 sits *inside* the `for` loop: at step `i` the
loop reads the `i`-th element of the original list (Python's `enumerate`
iterates the original list object), writes its mapped value at position
`i` of the current list, and then re-sorts the current list before the
next step. -/
def process_passive_steps (dict : TMap) (orig : List Str) :
    List Nat → List Str → Option (List Str)
  | [], cur => some cur
  | i :: is_, cur =>
    match orig.get? i with
    | none => none
    | some target =>
      match map_target_relation dict target with
      | none => none
      | some v =>
        match sort_by_key_opt reading_reference_key intLe (cur.set i v) with
        | none => none
        | some cur2 => process_passive_steps dict orig is_ cur2

/-- Lines 203-213 for the whole passive list: iterate the indices of the
original list, starting from the original list as the current value. -/
def process_passive (dict : TMap) (l : List Str) : Option (List Str) :=
  process_passive_steps dict l (List.range l.length) l

/-- `process_relation` (lines 189-214): the active list is remapped and
sorted once, after its loop; the passive list goes through the
sort-inside-the-loop code path. -/
def process_relation (dict : TMap) (rel : Relation) : Option Relation :=
  match optMapM (map_target_relation dict) rel.active with
  | none => none
  | some active' =>
    match sort_by_key_opt reading_reference_key intLe active' with
    | none => none
    | some active_sorted =>
      match process_passive dict rel.passive with
      | none => none
      | some passive' => some ⟨active_sorted, passive', rel.ana⟩

/-- `relation_key` (lines 82-95): `#Byz` relations sort last with key
`((999,), (999,))`; otherwise the pair of key tuples of the active and
passive reference lists. -/
def relation_key (r : Relation) : Option ((List Int) × (List Int)) :=
  if r.ana = some ("#Byz".toList) then some ([999], [999])
  else
    match optMapM reading_reference_key r.active,
        optMapM reading_reference_key r.passive with
    | some a, some p => some (a, p)
    | _, _ => none

/-- `process_list_relation` (lines 219-225): process each relation, then
sort them by `relation_key`. -/
def process_list_relation (dict : TMap) (rels : List Relation) :
    Option (List Relation) :=
  match optMapM (process_relation dict) rels with
  | none => none
  | some rels' => sort_by_key_opt relation_key pairLe rels'

/-- `process_note` (lines 231-235): process every `listRelation` child. -/
def process_note (dict : TMap) (lrs : List (List Relation)) : Option Child :=
  match optMapM (process_list_relation dict) lrs with
  | none => none
  | some lrs' => some (Child.note lrs')

/-- The dispatch of `process_app`'s first loop (lines 242-256): comments
and lemmas are left alone, readings are renumbered, only `ambiguous`
witness-details are processed, notes are processed. -/
def process_child (dict : TMap) : Child → Option Child
  | Child.comment t => some (Child.comment t)
  | Child.lem c => some (Child.lem c)
  | Child.rdg n idOpt typ w c => process_rdg dict n idOpt typ w c
  | Child.witDetail typ n idOpt w tg ct =>
    if typ = some ("ambiguous".toList) then
      process_wit_detail dict typ n idOpt w tg ct
    else some (Child.witDetail typ n idOpt w tg ct)
  | Child.note lrs => process_note dict lrs

/-- The five-slot number vector of `rdg_key` (lines 34-46): dash-parts
tagged `v`/`f`/`o`/`s` fill slots 4/3/2/1, an untagged part fills slot 0. -/
def rdg_n_key_parts (parts : List Str) : Option (List Int) :=
  optFoldl (fun acc part =>
    match part with
    | [] => none
    | c :: _ =>
      if c = 'v' then (parseInt (pyStrip 'v' part)).map (fun k => acc.set 4 k)
      else if c = 'f' then (parseInt (pyStrip 'f' part)).map (fun k => acc.set 3 k)
      else if c = 'o' then (parseInt (pyStrip 'o' part)).map (fun k => acc.set 2 k)
      else if c = 's' then (parseInt (pyStrip 's' part)).map (fun k => acc.set 1 k)
      else (parseInt part).map (fun k => acc.set 0 k))
    ([0, 0, 0, 0, 0]) parts

/-- `rdg_key(xml)` (lines 19-63) given `prev`, the key of the preceding
sibling (a comment inherits it; `[-1]` stands for a comment with no
preceding sibling). -/
def rdg_key (prev : List Int) : Child → Option (List Int)
  | Child.comment _ => some prev
  | Child.lem _ => some [0]
  | Child.rdg n _ _ _ _ =>
    (rdg_n_key_parts (pySplit '-' n)).map (fun v => 1 :: v)
  | Child.witDetail typ n _ _ targets _ =>
    if typ = some ("ambiguous".toList) then
      match optMapM parseInt targets with
      | none => none
      | some tgts =>
        let parts := pySplit '-' n
        if parts.length > 1 then
          match parts.get? 1 with
          | none => none
          | some second => (parseInt second).map (fun k => [2, 0] ++ tgts ++ [k])
        else some ([2, 0] ++ tgts)
    else if typ = some ("overlap".toList) then some [2, 1]
    else if typ = some ("lac".toList) then some [2, 2]
    else some [2]
  | Child.note _ => some [3]

/-- The key list `sorted` computes before sorting `process_app`'s
children: keys are computed in pre-sort sibling order, each comment
receiving the key of the element before it. -/
def compute_keys : List Child → List Int → Option (List (Child × List Int))
  | [], _ => some []
  | c :: rest, prev =>
    match rdg_key prev c with
    | none => none
    | some k =>
      match compute_keys rest k with
      | none => none
      | some t => some ((c, k) :: t)

/-- `process_app` (lines 240-259): process every child in place, then
stably sort the children by `rdg_key`. -/
def process_app (dict : TMap) (children : List Child) : Option (List Child) :=
  match optMapM (process_child dict) children with
  | none => none
  | some processed =>
    match compute_keys processed ([-1]) with
    | none => none
    | some keyed =>
      some ((sortByKeys (fun p q => lexLe p.2 q.2) keyed).map (fun p => p.1))


/-- The `rdg_key` value of a plainly numbered reading, as a total function
of the child (used to state the sorting lemmas about `process_app` on
units of such readings). -/
def plain_rdg_key (c : Child) : List Int :=
  match c with
  | Child.rdg n _ _ _ _ => [1, Int.ofNat ((parseNat n).getD 0), 0, 0, 0, 0]
  | _ => []

/-- A reading child with a plain number and no `xml:id`, assembled from a
`(number, type, wit, content)` quadruple; used to state the round-trip
theorem. -/
def plain_rdg (p : Str × Option Str × Str × Str) : Child :=
  Child.rdg p.1 none p.2.1 p.2.2.1 p.2.2.2

/-- `plain_rdg` with its number remapped through `dict`. -/
def plain_rdg_mapped (dict : TMap) (p : Str × Option Str × Str × Str) : Child :=
  Child.rdg ((lookupA dict p.1).getD []) none p.2.1 p.2.2.1 p.2.2.2

/-- Remap the number of a plainly numbered reading through `dict`,
leaving any other child untouched; used to describe the inverse pass. -/
def remap_plain (dict : TMap) : Child → Child
  | Child.rdg n _ typ w ct =>
    Child.rdg ((lookupA dict n).getD []) none typ w ct
  | c => c

/-- Pair a child with its `plain_rdg_key`, the sort key the engine
computes for plainly numbered readings. -/
def child_key_pair (c : Child) : Child × List Int := (c, plain_rdg_key c)

/-- The Boolean order on key pairs used by the child sort. -/
def child_key_le (p q : Child × List Int) : Bool := lexLe p.2 q.2

end Transpose


namespace Merge

/-- The per-unit citation stream of the fill loop (lines 189-210): the
`(reading id, witness)` pairs in document order. -/
def unit_citations (unit : List (Str × Str)) : List (Str × Str) :=
  unit.flatMap (fun r => (rdg_wits r.2).map (fun w => (r.1, w)))

/-- Whether the citation `wit` writes the current reading id into the
matrix entry of siglum `s` (lines 200-210): an explicitly keyed siglum
writes only its own entry; any other citation writes every registered
siglum of its base that contains it as a substring. -/
def writes_to (witnesses : List Str) (sigla : List (Str × List Str))
    (keys : List Str) (wit s : Str) : Bool :=
  if wit ∈ keys then decide (wit = s)
  else
    match lookupA sigla (get_base_wit witnesses wit) with
    | some l => decide (s ∈ l) && decide (wit <:+: s)
    | none => false

end Merge

/-! ## Order and iteration lemmas -/

theorem lexLe_refl (l : List Int) : lexLe l l = true := by
  induction l with
  | nil => rfl
  | cons a as ih => simp [lexLe, ih]

theorem lexLe_total (a b : List Int) : lexLe a b = true ∨ lexLe b a = true := by
  induction a generalizing b with
  | nil => exact Or.inl rfl
  | cons x xs ih =>
    cases b with
    | nil => exact Or.inr rfl
    | cons y ys =>
      rcases lt_trichotomy x y with h | h | h
      · left; simp [lexLe, h]
      · subst h
        rcases ih ys with h | h
        · left; simp [lexLe, h]
        · right; simp [lexLe, h]
      · right; simp [lexLe, h]

theorem lexLe_antisymm : ∀ {a b : List Int},
    lexLe a b = true → lexLe b a = true → a = b
  | [], [], _, _ => rfl
  | [], _ :: _, _, h => by simp [lexLe] at h
  | _ :: _, [], h, _ => by simp [lexLe] at h
  | x :: xs, y :: ys, h1, h2 => by
    rcases lt_trichotomy x y with h | h | h
    · simp [lexLe, h, not_lt.mpr h.le, ne_of_gt h] at h2
    · subst h
      simp only [lexLe, lt_irrefl, if_false] at h1 h2
      exact congrArg (x :: ·) (lexLe_antisymm h1 h2)
    · simp [lexLe, h, not_lt.mpr h.le, ne_of_gt h] at h1

theorem lexLe_trans : ∀ {a b c : List Int},
    lexLe a b = true → lexLe b c = true → lexLe a c = true
  | [], _, _, _, _ => rfl
  | _ :: _, [], _, h, _ => by simp [lexLe] at h
  | _ :: _, _ :: _, [], _, h => by simp [lexLe] at h
  | x :: xs, y :: ys, z :: zs, h1, h2 => by
    rcases lt_trichotomy x y with hxy | hxy | hxy
    · rcases lt_trichotomy y z with hyz | hyz | hyz
      · simp [lexLe, hxy.trans hyz]
      · subst hyz; simp [lexLe, hxy]
      · simp [lexLe, hyz, not_lt.mpr hyz.le, ne_of_gt hyz] at h2
    · subst hxy
      rcases lt_trichotomy x z with hyz | hyz | hyz
      · simp [lexLe, hyz]
      · subst hyz
        simp only [lexLe, lt_irrefl, if_false] at h1 h2 ⊢
        exact lexLe_trans h1 h2
      · simp [lexLe, hyz, not_lt.mpr hyz.le, ne_of_gt hyz] at h2
    · simp [lexLe, hxy, not_lt.mpr hxy.le, ne_of_gt hxy] at h1

theorem insertSorted_perm {α : Type} (le : α → α → Bool) (x : α) :
    ∀ (l : List α), (insertSorted le x l).Perm (x :: l)
  | [] => List.Perm.refl _
  | y :: ys => by
    by_cases h : le x y = true
    · simp [insertSorted, h]
    · simp only [insertSorted, h, if_false]
      exact ((insertSorted_perm le x ys).cons y).trans (List.Perm.swap x y ys)

theorem sortByKeys_perm {α : Type} (le : α → α → Bool) :
    ∀ (l : List α), (sortByKeys le l).Perm l
  | [] => List.Perm.refl _
  | x :: xs =>
    (insertSorted_perm le x (sortByKeys le xs)).trans
      ((sortByKeys_perm le xs).cons x)

theorem mem_insertSorted {α : Type} (le : α → α → Bool) (x a : α)
    (l : List α) : a ∈ insertSorted le x l ↔ a = x ∨ a ∈ l := by
  have := (insertSorted_perm le x l).mem_iff (a := a)
  simpa using this

theorem insertSorted_pairwise {α : Type} (le : α → α → Bool)
    (htot : ∀ a b, le a b = true ∨ le b a = true)
    (htrans : ∀ a b c, le a b = true → le b c = true → le a c = true) (x : α) :
    ∀ (l : List α), l.Pairwise (fun a b => le a b = true) →
      (insertSorted le x l).Pairwise (fun a b => le a b = true)
  | [], _ => by simp [insertSorted]
  | y :: ys, h => by
    rcases List.pairwise_cons.mp h with ⟨hy, hys⟩
    by_cases hxy : le x y = true
    · simp only [insertSorted, hxy, if_true]
      refine List.pairwise_cons.mpr ⟨?_, h⟩
      intro b hb
      rcases List.mem_cons.mp hb with rfl | hb
      · exact hxy
      · exact htrans x y b hxy (hy b hb)
    · simp only [insertSorted, hxy, if_false]
      refine List.pairwise_cons.mpr
        ⟨?_, insertSorted_pairwise le htot htrans x ys hys⟩
      intro b hb
      rcases (mem_insertSorted le x b ys).mp hb with rfl | hb
      · rcases htot b y with h' | h'
        · exact absurd h' hxy
        · exact h'
      · exact hy b hb

theorem sortByKeys_pairwise {α : Type} (le : α → α → Bool)
    (htot : ∀ a b, le a b = true ∨ le b a = true)
    (htrans : ∀ a b c, le a b = true → le b c = true → le a c = true) :
    ∀ (l : List α), (sortByKeys le l).Pairwise (fun a b => le a b = true)
  | [] => List.Pairwise.nil
  | x :: xs => by
    exact insertSorted_pairwise le htot htrans x (sortByKeys le xs)
      (sortByKeys_pairwise le htot htrans xs)

theorem sortByKeys_eq_self {α : Type} (le : α → α → Bool) :
    ∀ (l : List α), l.Pairwise (fun a b => le a b = true) → sortByKeys le l = l
  | [], _ => rfl
  | x :: xs, h => by
    rcases List.pairwise_cons.mp h with ⟨hx, hxs⟩
    rw [sortByKeys, sortByKeys_eq_self le xs hxs]
    cases xs with
    | nil => rfl
    | cons y ys => simp [insertSorted, hx y (List.mem_cons_self y ys)]

/-- Two sorted lists that are permutations of each other and whose elements
are pairwise separated by the order (no ties between distinct elements)
are equal: the uniqueness of a stable sort's output. -/
theorem eq_of_perm_of_pairwise {α : Type} (le : α → α → Bool) :
    ∀ (l₁ l₂ : List α), l₁.Perm l₂ →
      l₁.Pairwise (fun a b => le a b = true) →
      l₂.Pairwise (fun a b => le a b = true) →
      (∀ a ∈ l₁, ∀ b ∈ l₁, le a b = true → le b a = true → a = b) →
      l₁ = l₂
  | [], l₂, hp, _, _, _ => (hp.nil_eq).symm ▸ rfl
  | a :: t₁, [], hp, _, _, _ => absurd hp.symm.nil_eq (by simp)
  | a :: t₁, b :: t₂, hp, h₁, h₂, hanti => by
    rcases List.pairwise_cons.mp h₁ with ⟨ha, ht₁⟩
    rcases List.pairwise_cons.mp h₂ with ⟨hb, ht₂⟩
    have hab : a = b := by
      by_cases hab : a = b
      · exact hab
      · have hamem : a ∈ b :: t₂ := hp.subset (List.mem_cons_self a t₁)
        have hbmem : b ∈ a :: t₁ := hp.symm.subset (List.mem_cons_self b t₂)
        have hba : le b a = true := by
          rcases List.mem_cons.mp hamem with h | h
          · exact absurd h (fun hh => hab hh)
          · exact hb a h
        have hab' : le a b = true := by
          rcases List.mem_cons.mp hbmem with h | h
          · exact absurd h.symm (fun hh => hab hh)
          · exact ha b h
        exact hanti a (List.mem_cons_self a t₁) b hbmem hab' hba
    subst hab
    have hpt : t₁.Perm t₂ := hp.cons_inv
    have : t₁ = t₂ :=
      eq_of_perm_of_pairwise le t₁ t₂ hpt ht₁ ht₂
        (fun x hx y hy => hanti x (List.mem_cons_of_mem a hx)
          y (List.mem_cons_of_mem a hy))
    rw [this]

theorem optMapM_eq_map {α β : Type} (f : α → Option β) (g : α → β) :
    ∀ (l : List α), (∀ a ∈ l, f a = some (g a)) →
      optMapM f l = some (l.map g)
  | [], _ => rfl
  | a :: t, h => by
    rw [optMapM, h a (List.mem_cons_self a t),
      optMapM_eq_map f g t (fun x hx => h x (List.mem_cons_of_mem a hx))]
    rfl

theorem optMapM_some {α β : Type} (f : α → Option β) :
    ∀ (l : List α) (r : List β), optMapM f l = some r →
      r.length = l.length ∧ ∀ a ∈ l, ∃ b ∈ r, f a = some b
  | [], r, h => by
    simp only [optMapM, Option.some.injEq] at h
    subst h; exact ⟨rfl, by simp⟩
  | a :: t, r, h => by
    rw [optMapM] at h
    cases hfa : f a with
    | none => rw [hfa] at h; exact absurd h (by simp)
    | some b =>
      rw [hfa] at h
      cases hft : optMapM f t with
      | none => rw [hft] at h; exact absurd h (by simp)
      | some bs =>
        rw [hft] at h
        simp only [Option.some.injEq] at h
        subst h
        rcases optMapM_some f t bs hft with ⟨hlen, hmem⟩
        refine ⟨by simp [hlen], ?_⟩
        intro x hx
        rcases List.mem_cons.mp hx with rfl | hx
        · exact ⟨b, List.mem_cons_self b bs, hfa⟩
        · rcases hmem x hx with ⟨y, hy, hfy⟩
          exact ⟨y, List.mem_cons_of_mem b hy, hfy⟩


/-! ## Helper lemmas about the siglum resolvers -/

theorem joinSep_nil_cons (x : Str) (l : List Str) :
    joinSep [] (x :: l) = x ++ joinSep [] l := by
  cases l with
  | nil => simp [joinSep]
  | cons y r => simp [joinSep]

/-- With an empty registered suffix, the single-list `parse_wit` loop never
exits once the siglum has been emptied: the empty suffix matches forever. -/
theorem parse_wit_go_nil_base_none (suffixes : List Str)
    (h : [] ∈ suffixes) :
    ∀ (fuel : Nat) (acc : List Str),
      NegPos.parse_wit_go suffixes fuel [] acc = none := by
  intro fuel
  induction fuel with
  | zero => intro acc; rfl
  | succ n ih =>
    intro acc
    rw [NegPos.parse_wit_go]
    cases hf : suffixes.find? (fun s => decide (s <:+ ([] : Str))) with
    | none =>
      exfalso
      have := List.find?_eq_none.mp hf [] h
      simp at this
    | some sfx =>
      have hsfx : sfx <:+ ([] : Str) := by
        have := List.find?_some hf
        simpa using this
      have hsfx' : sfx = [] := List.suffix_nil.mp hsfx
      subst hsfx'
      simpa [pyTruncate] using ih (([] : Str) :: acc)

/-- Round-trip invariant of the single-list `parse_wit` loop: whenever the
loop returns, the returned base concatenated with the returned suffix
stack equals the initial siglum concatenated with the initial stack. -/
theorem parse_wit_go_round_trip (suffixes : List Str) :
    ∀ (fuel : Nat) (base : Str) (acc : List Str) (b : Str) (s : List Str),
      NegPos.parse_wit_go suffixes fuel base acc = some (b, s) →
      b ++ joinSep [] s = base ++ joinSep [] acc := by
  intro fuel
  induction fuel with
  | zero => intro base acc b s h; exact absurd h (by simp [NegPos.parse_wit_go])
  | succ n ih =>
    intro base acc b s h
    cases hf : suffixes.find? (fun sf => decide (sf <:+ base)) with
    | none =>
      simp only [NegPos.parse_wit_go, hf, Option.some.injEq, Prod.mk.injEq] at h
      rw [h.1, h.2]
    | some sfx =>
      simp only [NegPos.parse_wit_go, hf] at h
      have hsfx : sfx <:+ base := by
        have := List.find?_some hf
        simpa using this
      by_cases hnil : sfx = []
      · subst hnil
        rw [show pyTruncate base ([] : Str).length = [] from by simp [pyTruncate]] at h
        rw [parse_wit_go_nil_base_none suffixes (List.mem_of_find?_eq_some hf) n _] at h
        exact absurd h (by simp)
      · obtain ⟨pre, hpre⟩ := hsfx
        have hlen : base.length - sfx.length = pre.length := by
          subst hpre; simp
        have htr : pyTruncate base sfx.length = pre := by
          rw [pyTruncate, if_neg (by simpa using hnil), hlen]
          subst hpre
          exact List.take_left pre sfx
        rw [htr] at h
        have := ih pre (sfx :: acc) b s h
        rw [this, joinSep_nil_cons]
        subst hpre
        simp

/-- Each step of `pick_suffix` either keeps the previous candidate or
returns a suffix of the current siglum. -/
theorem pick_suffix_spec (role : List Str) (base cur : Str) :
    Validate.pick_suffix role base cur = cur ∨
      Validate.pick_suffix role base cur <:+ base := by
  unfold Validate.pick_suffix
  cases hf : role.find? (fun s => decide (s <:+ base)) with
  | none => exact Or.inl rfl
  | some s =>
    right
    have := List.find?_some hf
    simpa using this

/-- The suffix selected by the five-list `parse_wit` loop is either empty
or a suffix of the current siglum. -/
theorem select_suffix_spec (fh mt co al mu : List Str) (base : Str) :
    Validate.select_suffix fh mt co al mu base = [] ∨
      Validate.select_suffix fh mt co al mu base <:+ base := by
  unfold Validate.select_suffix
  have h0 : ([] : Str) = [] ∨ ([] : Str) <:+ base := Or.inl rfl
  have step : ∀ (role : List Str) (cur : Str), (cur = [] ∨ cur <:+ base) →
      (Validate.pick_suffix role base cur = [] ∨
        Validate.pick_suffix role base cur <:+ base) := by
    intro role cur hc
    rcases pick_suffix_spec role base cur with h | h
    · rw [h]; exact hc
    · exact Or.inr h
  exact step _ _ (step _ _ (step _ _ (step _ _ (step _ _ h0))))

/-- Round-trip invariant of the five-list `parse_wit` loop. -/
theorem validate_parse_wit_go_round_trip (fh mt co al mu : List Str) :
    ∀ (fuel : Nat) (base : Str) (acc : List Str) (b : Str) (s : List Str),
      Validate.parse_wit_go fh mt co al mu fuel base acc = some (b, s) →
      b ++ joinSep [] s = base ++ joinSep [] acc := by
  intro fuel
  induction fuel with
  | zero => intro base acc b s h; exact absurd h (by simp [Validate.parse_wit_go])
  | succ n ih =>
    intro base acc b s h
    by_cases hz : (Validate.select_suffix fh mt co al mu base).length = 0
    · rw [Validate.parse_wit_go, if_pos hz] at h
      simp only [Option.some.injEq, Prod.mk.injEq] at h
      rw [h.1, h.2]
    · rw [Validate.parse_wit_go, if_neg hz] at h
      have hnil : Validate.select_suffix fh mt co al mu base ≠ [] := by
        intro hc; exact hz (by rw [hc]; rfl)
      have hsfx : Validate.select_suffix fh mt co al mu base <:+ base := by
        rcases select_suffix_spec fh mt co al mu base with hc | hc
        · exact absurd hc hnil
        · exact hc
      generalize hS : Validate.select_suffix fh mt co al mu base = sfx at h hnil hsfx
      obtain ⟨pre, hpre⟩ := hsfx
      have htr : pyTruncate base sfx.length = pre := by
        rw [pyTruncate, if_neg (by simpa using hnil), ← hpre]
        simp only [List.length_append, Nat.add_sub_cancel]
        exact List.take_left pre sfx
      rw [htr] at h
      have := ih pre _ b s h
      rw [this, joinSep_nil_cons, ← hpre]
      simp

/-- When every registered suffix is non-empty, each iteration of the
single-list `parse_wit` loop strictly shortens the siglum, so fuel
exceeding the siglum's length always suffices. -/
theorem parse_wit_go_isSome (suffixes : List Str)
    (hs : ∀ s ∈ suffixes, s ≠ []) :
    ∀ (fuel : Nat) (base : Str) (acc : List Str), base.length < fuel →
      (NegPos.parse_wit_go suffixes fuel base acc).isSome = true := by
  intro fuel
  induction fuel with
  | zero => intro base acc h; exact absurd h (by simp)
  | succ n ih =>
    intro base acc hlt
    cases hf : suffixes.find? (fun sf => decide (sf <:+ base)) with
    | none => simp [NegPos.parse_wit_go, hf]
    | some sfx =>
      simp only [NegPos.parse_wit_go, hf]
      have hsfx : sfx <:+ base := by
        have := List.find?_some hf
        simpa using this
      have hnil : sfx ≠ [] := hs sfx (List.mem_of_find?_eq_some hf)
      have hk : 0 < sfx.length := List.length_pos.mpr hnil
      have hbase : 0 < base.length := by
        obtain ⟨pre, hpre⟩ := hsfx
        rw [← hpre]
        simp only [List.length_append]
        omega
      apply ih
      have hlen : (pyTruncate base sfx.length).length = base.length - sfx.length := by
        rw [pyTruncate, if_neg (by omega), List.length_take]
        omega
      have hle : sfx.length ≤ base.length := hsfx.length_le
      omega

/-- C1: for every witness citation and every suffix table for which
suffix-stack decomposition succeeds (the remainder after stripping is a
registered base witness), the returned base siglum concatenated with the
returned suffixes in their returned order reproduces the original
citation exactly — for the single-list `parse_wit` of
negative_to_positive_apparatus.py and the five-role-list `parse_wit` of
validate_collation.py alike. -/
theorem c1_parse_wit_round_trip :
    (∀ (wit : Str) (suffixes : List Str) (list_wit : List Str) (base : Str)
        (sfx : List Str),
      NegPos.parse_wit wit suffixes = some (base, sfx) → base ∈ list_wit →
      base ++ joinSep [] sfx = wit) ∧
    (∀ (wit : Str) (fh mt co al mu : List Str) (list_wit : List Str)
        (base : Str) (sfx : List Str),
      Validate.parse_wit wit fh mt co al mu = some (base, sfx) →
      base ∈ list_wit →
      base ++ joinSep [] sfx = wit) := by
  constructor
  · intro wit suffixes _ base sfx h _
    have := parse_wit_go_round_trip suffixes (wit.length + 1) wit [] base sfx h
    simpa [joinSep] using this
  · intro wit fh mt co al mu _ base sfx h _
    have := validate_parse_wit_go_round_trip fh mt co al mu (wit.length + 1)
      wit [] base sfx h
    simpa [joinSep] using this

/-- C1 witness: the canonical list `["P46"]` with suffix table `["*"]`
decomposes `P46*` as `("P46", ["*"])`, and the concatenation reproduces
the citation. -/
theorem c1_parse_wit_round_trip_witness :
    ("P46".toList) ++ joinSep [] ["*".toList] = "P46*".toList :=
  c1_parse_wit_round_trip.1 ("P46*".toList) ["*".toList] ["P46".toList]
    ("P46".toList) ["*".toList] (by decide) (by decide)

/-- C10: with every registered suffix non-empty, `parse_wit` terminates
within `length + 1` iterations (each iteration strips a matching suffix
and strictly shortens the siglum); without that precondition termination
fails: with the empty string registered as a suffix, the loop of the
single-list `parse_wit` never exits on the siglum `X1`, whatever fuel it
is given. -/
theorem c10_parse_wit_termination :
    (∀ (wit : Str) (suffixes : List Str), (∀ s ∈ suffixes, s ≠ []) →
      (NegPos.parse_wit wit suffixes).isSome = true) ∧
    (∀ (fuel : Nat) (acc : List Str),
      NegPos.parse_wit_go [[]] fuel ("X1".toList) acc = none) := by
  constructor
  · intro wit suffixes hs
    exact parse_wit_go_isSome suffixes hs (wit.length + 1) wit [] (by omega)
  · intro fuel acc
    cases fuel with
    | zero => rfl
    | succ n =>
      have hf : ([[]] : List Str).find? (fun sf => decide (sf <:+ ("X1".toList))) =
          some [] := by decide
      simp only [NegPos.parse_wit_go, hf]
      rw [show pyTruncate ("X1".toList) ([] : Str).length = [] from by
        simp [pyTruncate]]
      exact parse_wit_go_nil_base_none [[]] (by simp) n _

/-- C10 witness: with the non-empty suffix table `["*"]`, decomposition of
`P46*` terminates and returns a value. -/
theorem c10_parse_wit_termination_witness :
    (NegPos.parse_wit ("P46*".toList) ["*".toList]).isSome = true :=
  c10_parse_wit_termination.1 ("P46*".toList) ["*".toList] (by decide)

/-! ## C2: `get_base_wit` on an unresolvable citation -/

/-- On the reversed siglum: when no non-empty tail of the reversed siglum
reverses to a canonical witness, the stripping loop runs to the empty
string and returns it. -/
theorem get_base_wit_rev_nil (witnesses : List Str) :
    ∀ (r : Str), (∀ t : Str, t <:+ r → t ≠ [] → t.reverse ∉ witnesses) →
      Merge.get_base_wit_rev witnesses r = []
  | [], _ => rfl
  | c :: rest, h => by
    rw [Merge.get_base_wit_rev,
      if_neg (h (c :: rest) (List.suffix_refl _) (by simp))]
    exact get_base_wit_rev_nil witnesses rest
      (fun t ht hne => h t (ht.trans (List.suffix_cons c rest)) hne)

/-- C2 counterexample: the canonical list is `["A"]` and the citation is
`B1`; stripping trailing characters never reaches a canonical witness, yet
`get_base_wit` returns the empty string — not the citation `B1`
unchanged, as the claim states. -/
theorem c2_get_base_wit_counterexample :
    Merge.get_base_wit ["A".toList] ("B1".toList) = [] ∧
      ("B1".toList : Str) ≠ [] := by
  constructor
  · rfl
  · simp

/-- C2 amended: when stripping trailing characters from a (non-empty)
citation never reaches a member of the canonical witness list,
`get_base_wit` returns the *empty string* (not the citation unchanged),
and the Merge Engine then flags the citation (the line-159 report) and
raises a `KeyError` on the missing base key rather than coercing the
citation to a registered witness. -/
theorem c2_get_base_wit_amended (witnesses : List Str) (wit : Str)
    (m : List (Str × List Str))
    (h : ∀ k : Nat, k < wit.length → wit.take (k + 1) ∉ witnesses)
    (hw : wit ≠ []) (hm : lookupA m [] = none) :
    Merge.get_base_wit witnesses wit = [] ∧
      Merge.sigla_step witnesses m wit = none := by
  have hbase : Merge.get_base_wit witnesses wit = [] := by
    apply get_base_wit_rev_nil
    intro t ht hne
    have hpre : t.reverse <+: wit := by
      have : t.reverse.reverse <:+ wit.reverse := by simpa using ht
      exact (List.reverse_suffix).mp (by simpa using this)
    have htake : t.reverse = wit.take t.reverse.length :=
      List.prefix_iff_eq_take.mp hpre
    have hlen : t.reverse.length ≤ wit.length := hpre.length_le
    have hpos : 0 < t.reverse.length := by
      simpa [List.length_reverse] using List.length_pos.mpr hne
    have := h (t.reverse.length - 1) (by omega)
    rw [show t.reverse.length - 1 + 1 = t.reverse.length from by omega] at this
    rw [htake]
    exact this
  refine ⟨hbase, ?_⟩
  unfold Merge.sigla_step
  rw [hbase]
  rw [if_neg (by simpa using hw), hm]

/-- C2 amended witness: the concrete instance of the counterexample input,
via the amended theorem. -/
theorem c2_get_base_wit_amended_witness :
    Merge.get_base_wit ["A".toList] ("B1".toList) = [] ∧
      Merge.sigla_step ["A".toList] [("A".toList, [])] ("B1".toList) = none :=
  c2_get_base_wit_amended ["A".toList] ("B1".toList) [("A".toList, [])]
    (by decide) (by decide) (by decide)

/-! ## C4: determinism of the merged output -/

/-- C4 counterexample: the registered sigla `1A` and `1C` of base witness
`1` form one merged group; the group is sorted by base-witness index
alone (line 222), so sigla sharing a base keep the iteration order of the
Python *set* they came from — an order that varies from run to run under
CPython's randomised string hashing.  The two iteration orders of the same
two-element set produce different citation lists, so the merged `app`
element is not byte-for-byte reproducible across runs. -/
theorem c4_determinism_counterexample :
    (["1C".toList, "1A".toList] : List Str).Perm ["1A".toList, "1C".toList] ∧
    Merge.sort_group_wits ["1".toList] ["1A".toList, "1C".toList] ≠
      Merge.sort_group_wits ["1".toList] ["1C".toList, "1A".toList] := by
  constructor
  · exact List.Perm.swap _ _ _
  · decide

/-- C4 amended: for a fixed set-iteration order the merged output is a
function of the input, and the citation list of a group does not depend
on the iteration order at all when no two of the group's sigla share a
base witness (the common case): any two iteration orders of such a group
sort to the same list. -/
theorem c4_sort_group_order_invariant (witnesses : List Str)
    (g1 g2 : List Str) (hperm : g1.Perm g2)
    (hkeys : ∀ w ∈ g1,
      (List.indexOf? (Merge.get_base_wit witnesses w) witnesses).isSome = true)
    (hinj : ∀ v ∈ g1, ∀ w ∈ g1,
      List.indexOf? (Merge.get_base_wit witnesses v) witnesses =
        List.indexOf? (Merge.get_base_wit witnesses w) witnesses → v = w) :
    Merge.sort_group_wits witnesses g1 = Merge.sort_group_wits witnesses g2 := by
  unfold Merge.sort_group_wits
  set key : Str → Option Nat :=
    fun w => List.indexOf? (Merge.get_base_wit witnesses w) witnesses with hkey
  set g : Str → Nat := fun w => (key w).getD 0 with hg
  have hsome1 : ∀ w ∈ g1, key w = some (g w) := by
    intro w hw
    have hks := hkeys w hw
    simp only [hkey, hg]
    cases hk : List.indexOf? (Merge.get_base_wit witnesses w) witnesses with
    | none => rw [hk] at hks; simp at hks
    | some i => simp [hk]
  have hsome2 : ∀ w ∈ g2, key w = some (g w) := fun w hw =>
    hsome1 w (hperm.symm.subset hw)
  have hmap1 : optMapM key g1 = some (g1.map g) := optMapM_eq_map key g g1 hsome1
  have hmap2 : optMapM key g2 = some (g2.map g) := optMapM_eq_map key g g2 hsome2
  have hzip : ∀ (l : List Str), l.zip (l.map g) = l.map (fun a => (a, g a)) := by
    intro l
    induction l with
    | nil => rfl
    | cons a t ih => simp [ih]
  simp only [hmap1, hmap2, hzip]
  set le : (Str × Nat) → (Str × Nat) → Bool := fun p q => decide (p.2 ≤ q.2)
    with hle
  have htot : ∀ p q, le p q = true ∨ le q p = true := by
    intro p q
    rcases Nat.le_total p.2 q.2 with h | h
    · left; simpa [hle] using h
    · right; simpa [hle] using h
  have htrans : ∀ p q r, le p q = true → le q r = true → le p r = true := by
    intro p q r h1 h2
    simp only [hle, decide_eq_true_eq] at h1 h2 ⊢
    omega
  have hperm2 : (g1.map (fun a => (a, g a))).Perm (g2.map (fun a => (a, g a))) :=
    hperm.map _
  have hsorted1 := sortByKeys_pairwise le htot htrans (g1.map (fun a => (a, g a)))
  have hsorted2 := sortByKeys_pairwise le htot htrans (g2.map (fun a => (a, g a)))
  have hperm3 : (sortByKeys le (g1.map (fun a => (a, g a)))).Perm
      (sortByKeys le (g2.map (fun a => (a, g a)))) :=
    ((sortByKeys_perm le _).trans hperm2).trans (sortByKeys_perm le _).symm
  have hanti : ∀ p ∈ sortByKeys le (g1.map (fun a => (a, g a))),
      ∀ q ∈ sortByKeys le (g1.map (fun a => (a, g a))),
      le p q = true → le q p = true → p = q := by
    intro p hp q hq h1 h2
    have hp2 : p ∈ g1.map (fun a => (a, g a)) := (sortByKeys_perm le _).subset hp
    have hq2 : q ∈ g1.map (fun a => (a, g a)) := (sortByKeys_perm le _).subset hq
    rcases List.mem_map.mp hp2 with ⟨a, ha, rfl⟩
    rcases List.mem_map.mp hq2 with ⟨b, hb, rfl⟩
    simp only [hle, decide_eq_true_eq] at h1 h2
    have hgab : g a = g b := Nat.le_antisymm h1 h2
    have hab : a = b := by
      apply hinj a ha b hb
      have h1' := hsome1 a ha
      have h2' := hsome1 b hb
      simp only [hkey] at h1' h2'
      rw [h1', h2', hgab]
    rw [hab]
  have heq := eq_of_perm_of_pairwise le _ _ hperm3 hsorted1 hsorted2 hanti
  rw [heq]

/-- C4 amended witness: a group whose two sigla have distinct base
witnesses sorts to the same citation list in either iteration order. -/
theorem c4_sort_group_order_invariant_witness :
    Merge.sort_group_wits ["1".toList, "2".toList]
        ["1A".toList, "2C".toList] =
      Merge.sort_group_wits ["1".toList, "2".toList]
        ["2C".toList, "1A".toList] :=
  c4_sort_group_order_invariant ["1".toList, "2".toList]
    ["1A".toList, "2C".toList] ["2C".toList, "1A".toList]
    (List.Perm.swap _ _ _) (by decide) (by decide)

/-! ## C5: `rell` expansion -/

/-- C5 counterexample: canonical list `["1"]`, one reading citing
`rell X` where `X` (not a manuscript siglum) is not in the canonical
list.  The expanded set is `["1"]` and the cited base-witness set is
`["X"]`: they are disjoint, but their union is `{1, X}`, a strict
superset of the canonical witness list — the claimed union equality
fails. -/
theorem c5_rell_union_counterexample :
    NegPos.base_wits_cited [] [⟨"1".toList, "rell X".toList⟩] =
        some ["X".toList] ∧
    NegPos.uncited_wits ["1".toList] ["X".toList] = ["1".toList] ∧
    ¬ (∀ w : Str,
        (w ∈ NegPos.uncited_wits ["1".toList] ["X".toList] ∨
          w ∈ ["X".toList]) ↔ w ∈ (["1".toList] : List Str)) := by
  refine ⟨by decide, by decide, fun h => ?_⟩
  have := (h ("X".toList)).mp (Or.inr (by decide))
  revert this
  decide

/-- C5 amended: the expanded (`rell`) set and the cited base-witness set
are always disjoint; their union equals the full canonical witness list
provided every cited base witness is itself in the canonical list. -/
theorem c5_rell_disjoint_union (wit_ind_map : List Str)
    (suffix_ind_map : List Str) (rdgs : List Rdg) (cited : List Str)
    (hc : NegPos.base_wits_cited suffix_ind_map rdgs = some cited)
    (hsub : ∀ w ∈ cited, w ∈ wit_ind_map) :
    (∀ w ∈ NegPos.uncited_wits wit_ind_map cited, w ∉ cited) ∧
    (∀ w : Str, w ∈ wit_ind_map ↔
      (w ∈ NegPos.uncited_wits wit_ind_map cited ∨ w ∈ cited)) := by
  constructor
  · intro w hw
    have := List.of_mem_filter hw
    simpa using this
  · intro w
    constructor
    · intro hw
      by_cases hc2 : w ∈ cited
      · exact Or.inr hc2
      · left
        unfold NegPos.uncited_wits
        refine List.mem_filter.mpr ⟨hw, ?_⟩
        simpa using hc2
    · intro hw
      rcases hw with hw | hw
      · exact (List.mem_filter.mp hw).1
      · exact hsub w hw

/-- C5 amended witness: canonical list `[A, B, C, D]`, readings citing
`A B` and `rell`; the cited set is `{A, B}` (within the canonical list),
so the union property and disjointness hold. -/
theorem c5_rell_disjoint_union_witness :
    (∀ w ∈ NegPos.uncited_wits
        ["A".toList, "B".toList, "C".toList, "D".toList]
        ["A".toList, "B".toList], w ∉ (["A".toList, "B".toList] : List Str)) ∧
    (∀ w : Str, w ∈ (["A".toList, "B".toList, "C".toList, "D".toList] : List Str) ↔
      (w ∈ NegPos.uncited_wits
          ["A".toList, "B".toList, "C".toList, "D".toList]
          ["A".toList, "B".toList] ∨
        w ∈ (["A".toList, "B".toList] : List Str))) :=
  c5_rell_disjoint_union
    ["A".toList, "B".toList, "C".toList, "D".toList] []
    [⟨"1".toList, "A B".toList⟩, ⟨"2".toList, "rell".toList⟩]
    ["A".toList, "B".toList] (by decide) (by decide)

/-! ## C7: relation renumbering -/

/-- C7: the code processes the passive reference list with the `sorted`
call *inside* the remapping loop (line 212, contrast line 200 for the
active list), so remapped values can overwrite each other.  On the
relation with passive list `3 1 2` under the permutation
`{1 -> 3, 2 -> 2, 3 -> 1}` the code produces `1 2 2` — the reference `3`
is lost and `2` is duplicated — instead of the mapped, sorted image
`1 2 3` the claim (and the active-list code path) prescribe. -/
theorem c7_process_relation_passive_bug :
    Transpose.process_relation
        [("1".toList, "3".toList), ("2".toList, "2".toList),
          ("3".toList, "1".toList)]
        ⟨[], ["3".toList, "1".toList, "2".toList], none⟩ =
      some ⟨[], ["1".toList, "2".toList, "2".toList], none⟩ ∧
    Transpose.sort_by_key_opt Transpose.reading_reference_key Transpose.intLe
        (["3".toList, "1".toList, "2".toList].map
          (fun t => (lookupA [("1".toList, "3".toList), ("2".toList, "2".toList),
            ("3".toList, "1".toList)] t).getD [])) =
      some ["1".toList, "2".toList, "3".toList] ∧
    (["1".toList, "2".toList, "2".toList] : List Str) ≠
      ["1".toList, "2".toList, "3".toList] := by
  refine ⟨by decide, by decide, by decide⟩

/-! ## C9: unmatched-witness-pairs examples -/

/-- C9: with `*` registered as a first-hand suffix and `C1` as a corrector
suffix, a unit citing both `X1*` and `X1C1` under reading 1 produces no
unmatched-pair findings at all (in particular none for base witness
`X1`); with the `X1C1` citation removed from every reading, the check
reports the first-hand subwitness `X1*` (reading 1) as having no
corresponding subwitness. -/
theorem c9_unmatched_witness_pairs_example :
    Validate.find_unmatched_witness_pairs ["*".toList] [] ["C1".toList] [] []
        [⟨"1".toList, "X1* X1C1".toList⟩] = some [] ∧
    Validate.find_unmatched_witness_pairs ["*".toList] [] ["C1".toList] [] []
        [⟨"1".toList, "X1*".toList⟩] =
      some [Validate.Report.solo ("X1*".toList) ("1".toList)] := by
  constructor
  · decide
  · decide

/-! ## C8: renumbering round trip -/

/-- C8 counterexample: the identity permutation on reading numbers
`{1, 2}` is its own inverse, yet applying the Renumbering Engine twice to
a unit whose readings appear in the order `2, 1` yields the canonically
sorted order `1, 2` — the engine re-sorts the children, so the original
child order is not restored. -/
theorem c8_round_trip_counterexample :
    (Transpose.process_app
        [("1".toList, "1".toList), ("2".toList, "2".toList)]
        [Transpose.Child.rdg ("2".toList) none none ("w2".toList) ("c2".toList),
          Transpose.Child.rdg ("1".toList) none none ("w1".toList) ("c1".toList)]).bind
      (Transpose.process_app
        [("1".toList, "1".toList), ("2".toList, "2".toList)]) =
      some [Transpose.Child.rdg ("1".toList) none none ("w1".toList) ("c1".toList),
        Transpose.Child.rdg ("2".toList) none none ("w2".toList) ("c2".toList)] ∧
    some [Transpose.Child.rdg ("1".toList) none none ("w1".toList) ("c1".toList),
        Transpose.Child.rdg ("2".toList) none none ("w2".toList) ("c2".toList)] ≠
      some [Transpose.Child.rdg ("2".toList) none none ("w2".toList) ("c2".toList),
        Transpose.Child.rdg ("1".toList) none none ("w1".toList) ("c1".toList)] := by
  constructor
  · decide
  · decide

/-! ## C3: attestation-matrix fill semantics -/

theorem lookupA_isSome_iff {β : Type} (m : List (Str × β)) (x : Str) :
    (lookupA m x).isSome = true ↔ x ∈ m.map Prod.fst := by
  induction m with
  | nil => simp [lookupA]
  | cons p t ih =>
    rw [lookupA]
    by_cases h : p.1 = x
    · rw [if_pos h]
      simp only [Option.isSome_some, List.map_cons, List.mem_cons]
      exact ⟨fun _ => Or.inl h.symm, fun _ => trivial⟩
    · rw [if_neg h]
      simp only [List.map_cons, List.mem_cons]
      rw [ih]
      constructor
      · exact fun hm => Or.inr hm
      · intro hm
        rcases hm with hm | hm
        · exact absurd hm.symm h
        · exact hm

theorem writeA_fst {β : Type} (m : List (Str × β)) (k : Str) (v : β) :
    (writeA m k v).map Prod.fst = m.map Prod.fst := by
  induction m with
  | nil => rfl
  | cons p t ih =>
    show (((if p.1 = k then (p.1, v) else p) :: writeA t k v).map Prod.fst) = _
    by_cases h : p.1 = k
    · simp only [if_pos h, List.map_cons, ih]
    · simp only [if_neg h, List.map_cons, ih]

theorem lookupA_writeA {β : Type} (m : List (Str × β)) (k : Str) (v : β)
    (x : Str) :
    lookupA (writeA m k v) x =
      if x = k then (if (lookupA m k).isSome then some v else none)
      else lookupA m x := by
  induction m with
  | nil => simp [writeA, lookupA]
  | cons p t ih =>
    show lookupA ((if p.1 = k then (p.1, v) else p) :: writeA t k v) x = _
    have hhead : lookupA ((if p.1 = k then (p.1, v) else p) :: writeA t k v) x =
        if p.1 = x then some (if p.1 = k then v else p.2)
        else lookupA (writeA t k v) x := by
      by_cases h : p.1 = k
      · simp [lookupA, h]
      · simp [lookupA, h]
    rw [hhead, ih]
    by_cases hpx : p.1 = x
    · by_cases hpk : p.1 = k
      · have hxk : x = k := by rw [← hpx, hpk]
        simp [lookupA, hpx, hpk, hxk]
      · have hxk : ¬ x = k := by
          intro hc
          exact hpk (by rw [hpx, hc])
        simp [lookupA, hpx, hpk, hxk]
    · by_cases hxk : x = k
      · have hpk2 : ¬ p.1 = k := by
          intro hc
          exact hpx (by rw [hc, hxk])
        simp [lookupA, hpx, hxk, hpk2]
      · simp [lookupA, hpx, hxk]

theorem isSome_lookupA_writeA {β : Type} (m : List (Str × β)) (k : Str) (v : β)
    (x : Str) : (lookupA (writeA m k v) x).isSome = (lookupA m x).isSome := by
  rw [lookupA_writeA]
  by_cases hxk : x = k
  · rw [if_pos hxk, hxk]
    cases h : (lookupA m k).isSome
    · simp [h]
    · simp [h]
  · rw [if_neg hxk]

theorem foldl_writeA_fst (rid wit : Str) :
    ∀ (l : List Str) (st : List (Str × Str)),
      ((l.foldl (fun s siglum =>
        if wit <:+: siglum then writeA s siglum rid else s) st)).map Prod.fst =
        st.map Prod.fst
  | [], _ => rfl
  | sg :: t, st => by
    rw [List.foldl_cons]
    rw [foldl_writeA_fst rid wit t _]
    by_cases h : wit <:+: sg
    · rw [if_pos h, writeA_fst]
    · rw [if_neg h]

theorem foldl_writeA_lookup (rid wit : Str) :
    ∀ (l : List Str) (st : List (Str × Str)) (x : Str),
      lookupA (l.foldl (fun s siglum =>
        if wit <:+: siglum then writeA s siglum rid else s) st) x =
      if x ∈ l ∧ wit <:+: x then
        (if (lookupA st x).isSome then some rid else none)
      else lookupA st x := by
  intro l
  induction l with
  | nil =>
    intro st x
    simp
  | cons sg t ih =>
    intro st x
    rw [List.foldl_cons, ih]
    by_cases hinf : wit <:+: sg
    · by_cases hxt : x ∈ t ∧ wit <:+: x
      · have hmem : x ∈ sg :: t ∧ wit <:+: x :=
          ⟨List.mem_cons_of_mem sg hxt.1, hxt.2⟩
        rw [if_pos hxt, if_pos hmem, if_pos hinf, isSome_lookupA_writeA]
      · by_cases hxsg : x = sg
        · have hmem : x ∈ sg :: t ∧ wit <:+: x :=
            ⟨List.mem_cons.mpr (Or.inl hxsg), hxsg ▸ hinf⟩
          rw [if_neg hxt, if_pos hmem, if_pos hinf, lookupA_writeA,
            if_pos hxsg, hxsg]
        · have hcond : ¬ (x ∈ sg :: t ∧ wit <:+: x) := by
            intro hcon
            rcases List.mem_cons.mp hcon.1 with hh | hh
            · exact hxsg hh
            · exact hxt ⟨hh, hcon.2⟩
          rw [if_neg hxt, if_neg hcond, if_pos hinf, lookupA_writeA,
            if_neg hxsg]
    · rw [if_neg hinf]
      by_cases hxt : x ∈ t ∧ wit <:+: x
      · have hmem : x ∈ sg :: t ∧ wit <:+: x :=
          ⟨List.mem_cons_of_mem sg hxt.1, hxt.2⟩
        rw [if_pos hxt, if_pos hmem]
      · have hcond : ¬ (x ∈ sg :: t ∧ wit <:+: x) := by
          intro hcon
          rcases List.mem_cons.mp hcon.1 with hh | hh
          · exact hinf (hh ▸ hcon.2)
          · exact hxt ⟨hh, hcon.2⟩
        rw [if_neg hxt, if_neg hcond]

/-- The effect of one citation on the matrix column: the keys are
unchanged, and an entry holds the new reading id exactly when the
citation writes to it. -/
theorem fill_wit_char (witnesses : List Str) (sigla : List (Str × List Str))
    (st : List (Str × Str)) (rid wit : Str) (st' : List (Str × Str))
    (h : Merge.fill_wit witnesses sigla st rid wit = some st') :
    st'.map Prod.fst = st.map Prod.fst ∧
    ∀ x : Str, lookupA st' x =
      if Merge.writes_to witnesses sigla (st.map Prod.fst) wit x = true then
        (if (lookupA st x).isSome then some rid else none)
      else lookupA st x := by
  unfold Merge.fill_wit at h
  by_cases hmem : (lookupA st wit).isSome = true
  · rw [if_pos hmem] at h
    injection h with h
    subst h
    refine ⟨writeA_fst st wit rid, ?_⟩
    intro x
    rw [lookupA_writeA]
    unfold Merge.writes_to
    rw [if_pos ((lookupA_isSome_iff st wit).mp hmem)]
    by_cases hxw : x = wit
    · subst hxw
      simp [hmem]
    · rw [if_neg hxw,
        if_neg (by
          intro hc
          exact hxw (of_decide_eq_true hc).symm)]
  · rw [if_neg hmem] at h
    cases hsig : lookupA sigla (Merge.get_base_wit witnesses wit) with
    | none => rw [hsig] at h; exact absurd h (by simp)
    | some l =>
      rw [hsig] at h
      injection h with h
      subst h
      refine ⟨foldl_writeA_fst rid wit l st, ?_⟩
      intro x
      rw [foldl_writeA_lookup]
      have hwm : ¬ wit ∈ List.map Prod.fst st := fun hc =>
        hmem ((lookupA_isSome_iff st wit).mpr hc)
      have hwt : Merge.writes_to witnesses sigla (st.map Prod.fst) wit x =
          (decide (x ∈ l) && decide (wit <:+: x)) := by
        unfold Merge.writes_to
        rw [if_neg hwm, hsig]
      rw [hwt]
      by_cases hcond : x ∈ l ∧ wit <:+: x
      · have hb : (decide (x ∈ l) && decide (wit <:+: x)) = true := by
          rw [decide_eq_true hcond.1, decide_eq_true hcond.2]
          rfl
        rw [if_pos hcond, if_pos hb]
      · have hb : ¬ ((decide (x ∈ l) && decide (wit <:+: x)) = true) := by
          intro hc
          rw [Bool.and_eq_true] at hc
          exact hcond ⟨of_decide_eq_true hc.1, of_decide_eq_true hc.2⟩
        rw [if_neg hcond, if_neg hb]

theorem optFoldl_append {α σ : Type} (f : σ → α → Option σ) :
    ∀ (l1 l2 : List α) (s : σ),
      optFoldl f s (l1 ++ l2) =
        match optFoldl f s l1 with
        | none => none
        | some s1 => optFoldl f s1 l2
  | [], l2, s => rfl
  | a :: t, l2, s => by
    rw [List.cons_append, optFoldl, optFoldl]
    cases f s a with
    | none => rfl
    | some s1 => exact optFoldl_append f t l2 s1

theorem optFoldl_map {α β σ : Type} (g : α → β) (f : σ → β → Option σ) :
    ∀ (l : List α) (s : σ),
      optFoldl f s (l.map g) = optFoldl (fun s a => f s (g a)) s l
  | [], _ => rfl
  | a :: t, s => by
    rw [List.map_cons, optFoldl, optFoldl]
    cases f s (g a) with
    | none => rfl
    | some s1 => exact optFoldl_map g f t s1

/-- The per-unit fill loop is the fold of `fill_wit` over the unit's
citation stream. -/
theorem fill_unit_eq_citations (witnesses : List Str)
    (sigla : List (Str × List Str)) :
    ∀ (unit : List (Str × Str)) (st : List (Str × Str)),
      Merge.fill_unit witnesses sigla unit st =
        optFoldl (fun s p => Merge.fill_wit witnesses sigla s p.1 p.2) st
          (Merge.unit_citations unit)
  | [], st => rfl
  | r :: t, st => by
    unfold Merge.fill_unit Merge.unit_citations
    rw [List.flatMap_cons, optFoldl, optFoldl_append, optFoldl_map]
    have hinner : optFoldl
        (fun s a => Merge.fill_wit witnesses sigla s (r.1, a).1 (r.1, a).2) st
        (Merge.rdg_wits r.2) =
        optFoldl (fun s2 w => Merge.fill_wit witnesses sigla s2 r.1 w) st
          (Merge.rdg_wits r.2) := rfl
    rw [hinner]
    cases optFoldl (fun s2 w => Merge.fill_wit witnesses sigla s2 r.1 w) st
        (Merge.rdg_wits r.2) with
    | none => rfl
    | some s1 =>
      have := fill_unit_eq_citations witnesses sigla t s1
      unfold Merge.fill_unit Merge.unit_citations at this
      exact this

/-- Last-write characterisation of the fill loop over a citation stream:
the final value of an entry is given by the last citation that writes to
it, or the initial value if none does; the keys never change. -/
theorem fill_citations_char (witnesses : List Str)
    (sigla : List (Str × List Str)) :
    ∀ (cits : List (Str × Str)) (st st' : List (Str × Str)),
      optFoldl (fun s p => Merge.fill_wit witnesses sigla s p.1 p.2) st cits =
          some st' →
      st'.map Prod.fst = st.map Prod.fst ∧
      ∀ x : Str, lookupA st' x =
        match cits.reverse.find?
            (fun p => Merge.writes_to witnesses sigla (st.map Prod.fst) p.2 x) with
        | some p => (if (lookupA st x).isSome then some p.1 else none)
        | none => lookupA st x := by
  intro cits
  induction cits with
  | nil =>
    intro st st' h
    injection h with h
    subst h
    exact ⟨rfl, fun x => rfl⟩
  | cons p t ih =>
    intro st st' h
    rw [optFoldl] at h
    cases hstep : Merge.fill_wit witnesses sigla st p.1 p.2 with
    | none => rw [hstep] at h; exact absurd h (by simp)
    | some s1 =>
      rw [hstep] at h
      rcases fill_wit_char witnesses sigla st p.1 p.2 s1 hstep with ⟨hkeys1, hlook1⟩
      rcases ih s1 st' h with ⟨hkeys2, hlook2⟩
      have hkeys : st'.map Prod.fst = st.map Prod.fst := by
        rw [hkeys2, hkeys1]
      refine ⟨hkeys, ?_⟩
      intro x
      have hisome : (lookupA s1 x).isSome = (lookupA st x).isSome := by
        by_cases hx : x ∈ st.map Prod.fst
        · rw [(lookupA_isSome_iff s1 x).mpr (by rw [hkeys1]; exact hx),
            (lookupA_isSome_iff st x).mpr hx]
        · have h1 : ¬ (lookupA s1 x).isSome = true := fun hc =>
            hx (by rw [← hkeys1]; exact (lookupA_isSome_iff s1 x).mp hc)
          have h2 : ¬ (lookupA st x).isSome = true := fun hc =>
            hx ((lookupA_isSome_iff st x).mp hc)
          rw [Bool.not_eq_true] at h1 h2
          rw [h1, h2]
      rw [hlook2 x, hkeys1]
      rw [show (p :: t).reverse = t.reverse ++ [p] from by simp]
      rw [List.find?_append]
      cases hft : t.reverse.find?
          (fun q => Merge.writes_to witnesses sigla (st.map Prod.fst) q.2 x) with
      | some q =>
        simp only [Option.or]
        rw [hisome]
      | none =>
        simp only [Option.or]
        by_cases hw : Merge.writes_to witnesses sigla (st.map Prod.fst) p.2 x
            = true
        · rw [show List.find?
              (fun q => Merge.writes_to witnesses sigla (st.map Prod.fst) q.2 x)
              [p] = some p from by simp [List.find?, hw]]
          simp only []
          rw [hlook1 x, if_pos hw]
        · rw [show List.find?
              (fun q => Merge.writes_to witnesses sigla (st.map Prod.fst) q.2 x)
              [p] = none from by simp [List.find?, hw]]
          simp only []
          rw [hlook1 x, if_neg hw]

/-- C3 counterexample: canonical witnesses `["B"]`; one unit cites the
subwitness `B*` under reading 1 and the bare base `B` under reading 2
(later in document order).  `B*` is a registered subwitness key that is
separately cited in the unit, so by the claim it should keep its own
reading 1; the code instead records reading 2 for it — the later bare
base citation overwrites the explicit subwitness citation. -/
theorem c3_subwitness_overwrite_counterexample :
    Merge.sigla_by_base_witness ["B".toList]
        [[("1".toList, "B*".toList), ("2".toList, "B".toList)]] =
      some [("B".toList, ["B*".toList])] ∧
    Merge.reading_lists_init ["B".toList] [("B".toList, ["B*".toList])] =
      some [("B*".toList, Merge.LAC)] ∧
    Merge.fill_unit ["B".toList] [("B".toList, ["B*".toList])]
        [("1".toList, "B*".toList), ("2".toList, "B".toList)]
        [("B*".toList, Merge.LAC)] =
      some [("B*".toList, "2".toList)] ∧
    ("2".toList : Str) ≠ "1".toList := by
  refine ⟨by decide, by decide, by decide, by decide⟩

/-- C3 amended: the fill pass has last-write-wins semantics.  The keys of
the matrix column never change, and the final reading id recorded for a
siglum is the one of the *last* citation in document order that writes to
it (a bare base citation writes to every registered siglum of its base
containing it as a substring, an explicitly keyed citation writes to its
own entry), or the initial (lacuna) value when no citation writes to it.
In particular an explicitly cited subwitness key keeps its own reading
only when its citation occurs after the base citation. -/
theorem c3_attestation_last_write (witnesses : List Str)
    (sigla : List (Str × List Str)) (unit : List (Str × Str))
    (st st' : List (Str × Str))
    (h : Merge.fill_unit witnesses sigla unit st = some st') :
    st'.map Prod.fst = st.map Prod.fst ∧
    ∀ x : Str, lookupA st' x =
      match (Merge.unit_citations unit).reverse.find?
          (fun p => Merge.writes_to witnesses sigla (st.map Prod.fst) p.2 x) with
      | some p => (if (lookupA st x).isSome then some p.1 else none)
      | none => lookupA st x := by
  rw [fill_unit_eq_citations] at h
  exact fill_citations_char witnesses sigla (Merge.unit_citations unit) st st' h

/-- C3 amended witness: the counterexample unit, through the amended
theorem: `B*`'s final entry is determined by the last matching citation
(the bare `B` of reading 2). -/
theorem c3_attestation_last_write_witness :
    ([("B*".toList, "2".toList)] : List (Str × Str)).map Prod.fst =
        ([("B*".toList, Merge.LAC)] : List (Str × Str)).map Prod.fst ∧
    ∀ x : Str, lookupA [("B*".toList, "2".toList)] x =
      match (Merge.unit_citations
          [("1".toList, "B*".toList), ("2".toList, "B".toList)]).reverse.find?
          (fun p => Merge.writes_to ["B".toList] [("B".toList, ["B*".toList])]
            (([("B*".toList, Merge.LAC)] : List (Str × Str)).map Prod.fst)
            p.2 x) with
      | some p =>
        (if (lookupA [("B*".toList, Merge.LAC)] x).isSome then some p.1
          else none)
      | none => lookupA [("B*".toList, Merge.LAC)] x :=
  c3_attestation_last_write ["B".toList] [("B".toList, ["B*".toList])]
    [("1".toList, "B*".toList), ("2".toList, "B".toList)]
    [("B*".toList, Merge.LAC)] [("B*".toList, "2".toList)] (by decide)

/-! ## C6: positive-apparatus expander error handling -/

theorem optFoldl_isSome {α σ : Type} (f : σ → α → Option σ)
    (hf : ∀ s a, (f s a).isSome = true) :
    ∀ (l : List α) (s : σ), (optFoldl f s l).isSome = true
  | [], _ => rfl
  | a :: t, s => by
    rw [optFoldl]
    cases hfa : f s a with
    | none => have := hf s a; rw [hfa] at this; simp at this
    | some s1 => exact optFoldl_isSome f hf t s1

theorem optMapM_get? {α β : Type} (f : α → Option β) :
    ∀ (l : List α) (r : List β), optMapM f l = some r →
      ∀ (i : Nat) (a : α), l.get? i = some a →
        ∃ b, r.get? i = some b ∧ f a = some b
  | [], r, h => by
    intro i a ha
    simp at ha
  | a :: t, r, h => by
    intro i x hx
    rw [optMapM] at h
    cases hfa : f a with
    | none => rw [hfa] at h; exact absurd h (by simp)
    | some b =>
      rw [hfa] at h
      cases hft : optMapM f t with
      | none => rw [hft] at h; exact absurd h (by simp)
      | some bs =>
        rw [hft] at h
        injection h with h
        subst h
        cases i with
        | zero =>
          simp only [List.get?_cons_zero, Option.some.injEq] at hx
          subst hx
          exact ⟨b, rfl, hfa⟩
        | succ n =>
          simp only [List.get?_cons_succ] at hx ⊢
          exact optMapM_get? f t bs hft n x hx

/-- Given non-empty registered suffixes, the cited-base pass of
`convert_app` never hangs. -/
theorem base_wits_cited_isSome (suffix_ind_map : List Str)
    (hsuf : ∀ s ∈ suffix_ind_map, s ≠ []) (rdgs : List Rdg) :
    (NegPos.base_wits_cited suffix_ind_map rdgs).isSome = true := by
  unfold NegPos.base_wits_cited
  apply optFoldl_isSome
  intro acc r
  apply optFoldl_isSome
  intro acc2 w
  by_cases hrell : w = ("rell".toList)
  · simp [hrell]
  · rw [if_neg hrell]
    by_cases hpat : NegPos.witness_pattern_match w = true
    · rw [if_pos hpat]
      have hps : (NegPos.parse_wit w suffix_ind_map).isSome = true :=
        parse_wit_go_isSome suffix_ind_map hsuf (w.length + 1) w [] (by omega)
      cases hp : NegPos.parse_wit w suffix_ind_map with
      | none => rw [hp] at hps; simp at hps
      | some pr => obtain ⟨b, sf⟩ := pr; rfl
    · rw [if_neg hpat]; rfl

/-- Given non-empty registered suffixes, `wit_key` never hangs. -/
theorem wit_key_isSome (wit_ind_map suffix_ind_map : List Str)
    (hsuf : ∀ s ∈ suffix_ind_map, s ≠ []) (w : Str) :
    (NegPos.wit_key wit_ind_map suffix_ind_map w).isSome = true := by
  unfold NegPos.wit_key
  by_cases hpat : NegPos.witness_pattern_match w = true
  · rw [if_pos hpat]
    have hps : (NegPos.parse_wit w suffix_ind_map).isSome = true :=
      parse_wit_go_isSome suffix_ind_map hsuf (w.length + 1) w [] (by omega)
    cases hp : NegPos.parse_wit w suffix_ind_map with
    | none => rw [hp] at hps; simp at hps
    | some pr =>
      cases hi : List.indexOf? pr.1 wit_ind_map with
      | none => simp [hi]
      | some i =>
        cases hm : optMapM (fun s => List.indexOf? s suffix_ind_map) pr.2 with
        | none => simp [hi, hm]
        | some is_ => simp [hi, hm]
  · rw [if_neg hpat]
    cases hi : List.indexOf? w wit_ind_map with
    | none => simp [hi]
    | some i => simp [hi]

/-- Given non-empty registered suffixes, `get_sorted_wits` never hangs: it
returns either a sorted list or a caught error. -/
theorem keys_by_wit_isSome (wit_ind_map suffix_ind_map : List Str)
    (hsuf : ∀ s ∈ suffix_ind_map, s ≠ []) :
    ∀ (wits : List Str),
      (NegPos.keys_by_wit wit_ind_map suffix_ind_map wits).isSome = true
  | [] => rfl
  | w :: ws => by
    rw [NegPos.keys_by_wit]
    cases hk : NegPos.wit_key wit_ind_map suffix_ind_map w with
    | none =>
      have := wit_key_isSome wit_ind_map suffix_ind_map hsuf w
      rw [hk] at this
      simp at this
    | some e =>
      cases e with
      | error err => rfl
      | ok k =>
        cases hks : NegPos.keys_by_wit wit_ind_map suffix_ind_map ws with
        | none =>
          have := keys_by_wit_isSome wit_ind_map suffix_ind_map hsuf ws
          rw [hks] at this
          simp at this
        | some e2 => cases e2 with
          | error err => rfl
          | ok rest => rfl

theorem get_sorted_wits_isSome (wit_ind_map suffix_ind_map : List Str)
    (hsuf : ∀ s ∈ suffix_ind_map, s ≠ []) (wits : List Str) :
    (NegPos.get_sorted_wits wit_ind_map suffix_ind_map wits).isSome = true := by
  unfold NegPos.get_sorted_wits
  cases hks : NegPos.keys_by_wit wit_ind_map suffix_ind_map wits with
  | none =>
    have := keys_by_wit_isSome wit_ind_map suffix_ind_map hsuf wits
    rw [hks] at this
    simp at this
  | some e => cases e with
    | error err => rfl
    | ok keyed => rfl

theorem optMapM_isSome {α β : Type} (f : α → Option β)
    (hf : ∀ a, (f a).isSome = true) :
    ∀ (l : List α), (optMapM f l).isSome = true
  | [] => rfl
  | a :: t => by
    rw [optMapM]
    cases hfa : f a with
    | none => have := hf a; rw [hfa] at this; simp at this
    | some b =>
      cases hft : optMapM f t with
      | none =>
        have := optMapM_isSome f hf t
        rw [hft] at this
        simp at this
      | some bs => rfl

theorem process_rdg_conv_isSome (wit_ind_map suffix_ind_map : List Str)
    (hsuf : ∀ s ∈ suffix_ind_map, s ≠ []) (uncited_str : Str) (app_id : Str)
    (r : Rdg) :
    (NegPos.process_rdg_conv wit_ind_map suffix_ind_map uncited_str app_id
      r).isSome = true := by
  unfold NegPos.process_rdg_conv
  have hgs := get_sorted_wits_isSome wit_ind_map suffix_ind_map hsuf
    (pyWords (NegPos.replace_rell uncited_str r.wit))
  cases hg : NegPos.get_sorted_wits wit_ind_map suffix_ind_map
      (pyWords (NegPos.replace_rell uncited_str r.wit)) with
  | none => rw [hg] at hgs; simp at hgs
  | some e => cases e with
    | ok sorted => rfl
    | error err => rfl

/-- `convert_app` never hangs when every registered suffix is non-empty,
and its output is the per-reading map plus the collected reports. -/
theorem convert_app_some (wit_ind_map suffix_ind_map : List Str)
    (hsuf : ∀ s ∈ suffix_ind_map, s ≠ []) (app_id : Str) (rdgs : List Rdg) :
    ∃ cited results,
      NegPos.base_wits_cited suffix_ind_map rdgs = some cited ∧
      optMapM (NegPos.process_rdg_conv wit_ind_map suffix_ind_map
          (joinSep (" ".toList) (NegPos.uncited_wits wit_ind_map cited)) app_id)
        rdgs = some results ∧
      NegPos.convert_app wit_ind_map suffix_ind_map app_id rdgs =
        some (results.map (fun p => p.1), results.filterMap (fun p => p.2)) := by
  have hbc := base_wits_cited_isSome suffix_ind_map hsuf rdgs
  cases hc : NegPos.base_wits_cited suffix_ind_map rdgs with
  | none => rw [hc] at hbc; simp at hbc
  | some cited =>
    have hm := optMapM_isSome (NegPos.process_rdg_conv wit_ind_map
        suffix_ind_map (joinSep (" ".toList)
          (NegPos.uncited_wits wit_ind_map cited)) app_id)
      (fun r => process_rdg_conv_isSome wit_ind_map suffix_ind_map hsuf _
        app_id r) rdgs
    cases hres : optMapM (NegPos.process_rdg_conv wit_ind_map suffix_ind_map
        (joinSep (" ".toList) (NegPos.uncited_wits wit_ind_map cited)) app_id)
        rdgs with
    | none => rw [hres] at hm; simp at hm
    | some results =>
      refine ⟨cited, results, rfl, hres, ?_⟩
      unfold NegPos.convert_app
      simp only [hc, hres]

/-- C6: when sorting a reading's citation list fails to resolve a citation
(an unregistered base, surfacing as a caught `KeyError`), the failure is
reported with the unit id and that reading's number, the reading's
citation list is left in its post-substitution, pre-sort state, and no
exception escapes `convert_app`: every reading of the unit still produces
an output entry, and every unit of the document is still processed.  (The
hypothesis that registered suffixes are non-empty rules out the separate
non-termination of `parse_wit`, cf. C10.) -/
theorem c6_convert_app_error_handling (wit_ind_map suffix_ind_map : List Str)
    (app_id : Str) (rdgs : List Rdg)
    (hsuf : ∀ s ∈ suffix_ind_map, s ≠ []) :
    (∃ cited out reports,
      NegPos.base_wits_cited suffix_ind_map rdgs = some cited ∧
      NegPos.convert_app wit_ind_map suffix_ind_map app_id rdgs =
        some (out, reports) ∧
      out.length = rdgs.length ∧
      (∀ (i : Nat) (r : Rdg), rdgs.get? i = some r →
        (∀ e : Unit, NegPos.get_sorted_wits wit_ind_map suffix_ind_map
            (pyWords (NegPos.substituted wit_ind_map cited r)) =
              some (Except.error e) →
          out.get? i = some ⟨r.n, NegPos.substituted wit_ind_map cited r⟩ ∧
          (app_id, r.n) ∈ reports) ∧
        (∀ sorted : List Str, NegPos.get_sorted_wits wit_ind_map suffix_ind_map
            (pyWords (NegPos.substituted wit_ind_map cited r)) =
              some (Except.ok sorted) →
          out.get? i = some ⟨r.n, joinSep (" ".toList) sorted⟩))) ∧
    (∀ apps : List (Str × List Rdg),
      ∃ outs, NegPos.convert_negative_to_positive_apparatus wit_ind_map
          suffix_ind_map apps = some outs ∧ outs.length = apps.length) := by
  constructor
  · rcases convert_app_some wit_ind_map suffix_ind_map hsuf app_id rdgs with
      ⟨cited, results, hc, hres, happ⟩
    rcases optMapM_some _ rdgs results hres with ⟨hlen, _⟩
    refine ⟨cited, results.map (fun p => p.1), results.filterMap (fun p => p.2),
      hc, happ, by rw [List.length_map, hlen], ?_⟩
    intro i r hri
    rcases optMapM_get? _ rdgs results hres i r hri with ⟨b, hbi, hconv⟩
    unfold NegPos.process_rdg_conv at hconv
    unfold NegPos.substituted
    constructor
    · intro e hg
      rw [hg] at hconv
      injection hconv with hconv
      constructor
      · simp only [List.get?_map, hbi, ← hconv, Option.map_some']
      · have hbmem : b ∈ results := List.get?_mem hbi
        apply List.mem_filterMap.mpr
        exact ⟨b, hbmem, by rw [← hconv]⟩
    · intro sorted hg
      rw [hg] at hconv
      injection hconv with hconv
      simp only [List.get?_map, hbi, ← hconv, Option.map_some']
  · intro apps
    have hsome := optMapM_isSome
      (fun a => NegPos.convert_app wit_ind_map suffix_ind_map a.1 a.2)
      (fun a => by
        rcases convert_app_some wit_ind_map suffix_ind_map hsuf a.1 a.2 with
          ⟨cited, results, _, _, happ⟩
        show (NegPos.convert_app wit_ind_map suffix_ind_map a.1 a.2).isSome
          = true
        rw [happ]
        rfl) apps
    cases houts : optMapM
        (fun a => NegPos.convert_app wit_ind_map suffix_ind_map a.1 a.2)
        apps with
    | none => rw [houts] at hsome; simp at hsome
    | some outs =>
      rcases optMapM_some _ apps outs houts with ⟨hlen, _⟩
      exact ⟨outs, houts, hlen⟩

/-- C6 witness: canonical list `["A"]`, suffix `*`, one reading citing
`A QQ` (`QQ` resolves to no canonical witness, so its sort fails and is
reported); the instantiated error-handling property. -/
theorem c6_convert_app_error_handling_witness :
    (∃ cited out reports,
      NegPos.base_wits_cited ["*".toList] [⟨"1".toList, "A QQ".toList⟩] =
        some cited ∧
      NegPos.convert_app ["A".toList] ["*".toList] ("app1".toList)
        [⟨"1".toList, "A QQ".toList⟩] = some (out, reports) ∧
      out.length = ([⟨"1".toList, "A QQ".toList⟩] : List Rdg).length ∧
      (∀ (i : Nat) (r : Rdg),
        ([⟨"1".toList, "A QQ".toList⟩] : List Rdg).get? i = some r →
        (∀ e : Unit, NegPos.get_sorted_wits ["A".toList] ["*".toList]
            (pyWords (NegPos.substituted ["A".toList] cited r)) =
              some (Except.error e) →
          out.get? i = some ⟨r.n, NegPos.substituted ["A".toList] cited r⟩ ∧
          (("app1".toList : Str), r.n) ∈ reports) ∧
        (∀ sorted : List Str, NegPos.get_sorted_wits ["A".toList] ["*".toList]
            (pyWords (NegPos.substituted ["A".toList] cited r)) =
              some (Except.ok sorted) →
          out.get? i = some ⟨r.n, joinSep (" ".toList) sorted⟩))) ∧
    (∀ apps : List (Str × List Rdg),
      ∃ outs, NegPos.convert_negative_to_positive_apparatus ["A".toList]
          ["*".toList] apps = some outs ∧ outs.length = apps.length) :=
  c6_convert_app_error_handling ["A".toList] ["*".toList] ("app1".toList)
    [⟨"1".toList, "A QQ".toList⟩] (by decide)

/-! ## C8: round trip on canonically sorted units -/

theorem parseNat_spec (s : Str) (k : Nat) (h : parseNat s = some k) :
    s ≠ [] ∧ ∀ c ∈ s, c.isDigit = true := by
  unfold parseNat at h
  by_cases hc : s = [] ∨ ¬ s.all (fun c => c.isDigit) = true
  · rw [if_pos hc] at h; exact absurd h (by simp)
  · push_neg at hc
    exact ⟨hc.1, fun c hcs => List.all_eq_true.mp hc.2 c hcs⟩

theorem pySplit_single (c : Char) :
    ∀ (s : Str), (∀ a ∈ s, a ≠ c) → pySplit c s = [s]
  | [], _ => rfl
  | a :: rest, h => by
    rw [pySplit, pySplit_single c rest
      (fun x hx => h x (List.mem_cons_of_mem a hx))]
    show (if a = c then [[], rest] else [a :: rest]) = [a :: rest]
    rw [if_neg (h a (List.mem_cons_self a rest))]

theorem rdg_key_of_numeric (prev : List Int) (n : Str) (idOpt : Option Str)
    (typ : Option Str) (w ct : Str) (k : Nat) (hk : parseNat n = some k) :
    Transpose.rdg_key prev (Transpose.Child.rdg n idOpt typ w ct) =
      some [1, Int.ofNat k, 0, 0, 0, 0] := by
  obtain ⟨hne, hdig⟩ := parseNat_spec n k hk
  have hsplit : pySplit '-' n = [n] :=
    pySplit_single '-' n (fun a ha => by
      have := hdig a ha
      intro hac
      rw [hac] at this
      exact absurd this (by decide))
  rw [Transpose.rdg_key, hsplit]
  cases n with
  | nil => exact absurd rfl hne
  | cons c0 rest =>
    have hd0 : c0.isDigit = true := hdig c0 (List.mem_cons_self c0 rest)
    have hv : c0 ≠ 'v' := fun hc => by rw [hc] at hd0; exact absurd hd0 (by decide)
    have hf : c0 ≠ 'f' := fun hc => by rw [hc] at hd0; exact absurd hd0 (by decide)
    have ho : c0 ≠ 'o' := fun hc => by rw [hc] at hd0; exact absurd hd0 (by decide)
    have hs : c0 ≠ 's' := fun hc => by rw [hc] at hd0; exact absurd hd0 (by decide)
    rw [Transpose.rdg_n_key_parts, optFoldl]
    simp only [if_neg hv, if_neg hf, if_neg ho, if_neg hs]
    rw [parseInt, hk]
    rfl

theorem compute_keys_all_rdg :
    ∀ (children : List Transpose.Child) (prev : List Int),
      (∀ c ∈ children, ∃ n idOpt typ w ct k,
        c = Transpose.Child.rdg n idOpt typ w ct ∧ parseNat n = some k) →
      Transpose.compute_keys children prev =
        some (children.map (fun c => (c, Transpose.plain_rdg_key c)))
  | [], _, _ => rfl
  | c :: rest, prev, h => by
    rcases h c (List.mem_cons_self c rest) with
      ⟨n, idOpt, typ, w, ct, k, rfl, hk⟩
    have hrest := compute_keys_all_rdg rest [1, Int.ofNat k, 0, 0, 0, 0]
      (fun x hx => h x (List.mem_cons_of_mem _ hx))
    have hpk : Transpose.plain_rdg_key (Transpose.Child.rdg n idOpt typ w ct) =
        [1, Int.ofNat k, 0, 0, 0, 0] := by
      rw [Transpose.plain_rdg_key, hk]
      rfl
    rw [Transpose.compute_keys, rdg_key_of_numeric prev n idOpt typ w ct k hk]
    simp only [hrest, List.map_cons, hpk]

theorem optMapM_comp {α β γ : Type} (g : α → β) (f : β → Option γ) :
    ∀ (l : List α), optMapM f (l.map g) = optMapM (fun a => f (g a)) l
  | [] => rfl
  | a :: t => by
    rw [List.map_cons, optMapM, optMapM, optMapM_comp g f t]

theorem lexLe_plain (a b : Int) :
    lexLe [1, a, 0, 0, 0, 0] [1, b, 0, 0, 0, 0] = true ↔ a ≤ b := by
  show (if (1 : Int) < 1 then true
    else if (1 : Int) < 1 then false
    else lexLe [a, 0, 0, 0, 0] [b, 0, 0, 0, 0]) = true ↔ a ≤ b
  rw [if_neg (lt_irrefl (1 : Int)), if_neg (lt_irrefl (1 : Int))]
  rcases lt_trichotomy a b with h | h | h
  · simp [lexLe, h, h.le]
  · subst h
    simp [lexLe_refl]
  · simp [lexLe, h, not_lt.mpr h.le, ne_of_gt h, not_le.mpr h]

theorem pairwise_key_ne_inj {α K : Type} (key : α → K) :
    ∀ (l : List α), l.Pairwise (fun a b => key a ≠ key b) →
      ∀ a ∈ l, ∀ b ∈ l, key a = key b → a = b
  | [], _, a, ha, _, _, _ => absurd ha (by simp)
  | x :: t, h, a, ha, b, hb, hk => by
    rcases List.pairwise_cons.mp h with ⟨hx, ht⟩
    rcases List.mem_cons.mp ha with rfl | ha2
    · rcases List.mem_cons.mp hb with rfl | hb2
      · rfl
      · exact absurd hk (hx b hb2)
    · rcases List.mem_cons.mp hb with rfl | hb2
      · exact absurd hk.symm (hx a ha2)
      · exact pairwise_key_ne_inj key t ht a ha2 b hb2 hk

/-- `process_child` on a reading with a plain numeric `n` and no
`xml:id`: only the number is remapped. -/
theorem process_child_rdg_numeric (dict : Transpose.TMap) (n : Str)
    (typ : Option Str) (w ct : Str) (k : Nat) (v : Str)
    (hk : parseNat n = some k) (hv : lookupA dict n = some v) :
    Transpose.process_child dict (Transpose.Child.rdg n none typ w ct) =
      some (Transpose.Child.rdg v none typ w ct) := by
  obtain ⟨hne, hdig⟩ := parseNat_spec n k hk
  have hsplit : pySplit '-' n = [n] :=
    pySplit_single '-' n (fun a ha => by
      have := hdig a ha
      intro hac
      rw [hac] at this
      exact absurd this (by decide))
  show Transpose.process_rdg dict n none typ w ct = _
  rw [Transpose.process_rdg, hsplit]
  simp only [hv]
  rfl

theorem map_fst_pairing {α K : Type} (key : α → K) (l : List α) :
    (l.map (fun c => (c, key c))).map (fun p => p.1) = l := by
  induction l with
  | nil => rfl
  | cons a t ih => simp [ih]


/-- C8 amended: for a unit whose children are readings with plain numeric
numbers and no `xml:id`, listed in canonical (ascending-number) order,
renumbering by a permutation of those numbers (`dict`, with inverse
`dictInv`) and then by the inverse restores the unit exactly. -/
theorem c8_round_trip_restores_sorted_unit
    (dict dictInv : Transpose.TMap)
    (rs : List (Str × Option Str × Str × Str))
    (hnum : ∀ p ∈ rs, ∃ k, parseNat p.1 = some k)
    (hmap : ∀ p ∈ rs, ∃ v m, lookupA dict p.1 = some v ∧
      parseNat v = some m ∧ lookupA dictInv v = some p.1)
    (hsorted : List.Pairwise
      (fun p q => (parseNat p.1).getD 0 < (parseNat q.1).getD 0) rs) :
    (Transpose.process_app dict (rs.map Transpose.plain_rdg)).bind
      (Transpose.process_app dictInv) =
      some (rs.map Transpose.plain_rdg) := by
  have hfwd : ∀ p ∈ rs, Transpose.process_child dict (Transpose.plain_rdg p) =
      some (Transpose.plain_rdg_mapped dict p) := by
    intro p hp
    rcases hnum p hp with ⟨k, hk⟩
    rcases hmap p hp with ⟨v, m, hv, hpv, hvinv⟩
    simp only [Transpose.plain_rdg, Transpose.plain_rdg_mapped, hv,
      Option.getD_some]
    exact process_child_rdg_numeric dict p.1 p.2.1 p.2.2.1 p.2.2.2 k v hk hv
  have hl1 : optMapM (Transpose.process_child dict)
      (rs.map Transpose.plain_rdg) =
      some (rs.map (Transpose.plain_rdg_mapped dict)) := by
    rw [optMapM_comp]
    exact optMapM_eq_map _ _ rs hfwd
  have hl1num : ∀ c ∈ rs.map (Transpose.plain_rdg_mapped dict),
      ∃ n idOpt typ w ct k,
      c = Transpose.Child.rdg n idOpt typ w ct ∧ parseNat n = some k := by
    intro c hc
    rcases List.mem_map.mp hc with ⟨p, hp, rfl⟩
    rcases hmap p hp with ⟨v, m, hv, hpv, hvinv⟩
    exact ⟨(lookupA dict p.1).getD [], none, p.2.1, p.2.2.1, p.2.2.2, m,
      rfl, by rw [hv]; exact hpv⟩
  have hkeys1 := compute_keys_all_rdg (rs.map (Transpose.plain_rdg_mapped dict))
    [-1] hl1num
  have happ1 : Transpose.process_app dict (rs.map Transpose.plain_rdg) =
      some ((sortByKeys Transpose.child_key_le
        ((rs.map (Transpose.plain_rdg_mapped dict)).map Transpose.child_key_pair)).map
          (fun q => q.1)) := by
    unfold Transpose.process_app
    simp only [hl1, hkeys1]
    rfl
  have hperm1 : (((sortByKeys Transpose.child_key_le
      ((rs.map (Transpose.plain_rdg_mapped dict)).map Transpose.child_key_pair)).map
        (fun q => q.1))).Perm (rs.map (Transpose.plain_rdg_mapped dict)) := by
    have hp1 := (sortByKeys_perm Transpose.child_key_le
      ((rs.map (Transpose.plain_rdg_mapped dict)).map Transpose.child_key_pair)).map
      (fun q : Transpose.Child × List Int => q.1)
    rw [show (rs.map (Transpose.plain_rdg_mapped dict)).map Transpose.child_key_pair =
      (rs.map (Transpose.plain_rdg_mapped dict)).map
        (fun c => (c, Transpose.plain_rdg_key c)) from rfl] at hp1
    rw [map_fst_pairing] at hp1
    exact hp1
  have hback : ∀ c ∈ (sortByKeys Transpose.child_key_le
      ((rs.map (Transpose.plain_rdg_mapped dict)).map Transpose.child_key_pair)).map
        (fun q => q.1), ∃ p ∈ rs, c = Transpose.plain_rdg_mapped dict p := by
    intro c hc
    have hm : c ∈ rs.map (Transpose.plain_rdg_mapped dict) := hperm1.subset hc
    rcases List.mem_map.mp hm with ⟨p, hp, rfl⟩
    exact ⟨p, hp, rfl⟩
  have hginv_mk : ∀ p ∈ rs, Transpose.remap_plain dictInv
      (Transpose.plain_rdg_mapped dict p) = Transpose.plain_rdg p := by
    intro p hp
    rcases hmap p hp with ⟨v, m, hv, hpv, hvinv⟩
    simp only [Transpose.plain_rdg_mapped, Transpose.remap_plain,
      Transpose.plain_rdg, hv, Option.getD_some, hvinv]
  have hbwd : ∀ c ∈ (sortByKeys Transpose.child_key_le
      ((rs.map (Transpose.plain_rdg_mapped dict)).map Transpose.child_key_pair)).map
        (fun q => q.1),
      Transpose.process_child dictInv c =
        some (Transpose.remap_plain dictInv c) := by
    intro c hc
    rcases hback c hc with ⟨p, hp, rfl⟩
    rcases hnum p hp with ⟨k, hk⟩
    rcases hmap p hp with ⟨v, m, hv, hpv, hvinv⟩
    rw [hginv_mk p hp]
    simp only [Transpose.plain_rdg_mapped, Transpose.plain_rdg, hv,
      Option.getD_some]
    exact process_child_rdg_numeric dictInv v p.2.1 p.2.2.1 p.2.2.2 m p.1
      hpv hvinv
  have hl2 : optMapM (Transpose.process_child dictInv)
      ((sortByKeys Transpose.child_key_le
        ((rs.map (Transpose.plain_rdg_mapped dict)).map Transpose.child_key_pair)).map
          (fun q => q.1)) =
      some (((sortByKeys Transpose.child_key_le
        ((rs.map (Transpose.plain_rdg_mapped dict)).map Transpose.child_key_pair)).map
          (fun q => q.1)).map (Transpose.remap_plain dictInv)) :=
    optMapM_eq_map _ _ _ hbwd
  have hl2perm : ((((sortByKeys Transpose.child_key_le
      ((rs.map (Transpose.plain_rdg_mapped dict)).map Transpose.child_key_pair)).map
        (fun q => q.1)).map (Transpose.remap_plain dictInv))).Perm
      (rs.map Transpose.plain_rdg) := by
    have h1 : (rs.map (Transpose.plain_rdg_mapped dict)).map
        (Transpose.remap_plain dictInv) = rs.map Transpose.plain_rdg := by
      rw [List.map_map]
      exact List.map_congr_left (fun p hp => hginv_mk p hp)
    have h2 := hperm1.map (Transpose.remap_plain dictInv)
    rw [h1] at h2
    exact h2
  have hl2num : ∀ c ∈ (((sortByKeys Transpose.child_key_le
      ((rs.map (Transpose.plain_rdg_mapped dict)).map Transpose.child_key_pair)).map
        (fun q => q.1)).map (Transpose.remap_plain dictInv)),
      ∃ n idOpt typ w ct k,
      c = Transpose.Child.rdg n idOpt typ w ct ∧ parseNat n = some k := by
    intro c hc
    have hm : c ∈ rs.map Transpose.plain_rdg := hl2perm.subset hc
    rcases List.mem_map.mp hm with ⟨p, hp, rfl⟩
    rcases hnum p hp with ⟨k, hk⟩
    exact ⟨p.1, none, p.2.1, p.2.2.1, p.2.2.2, k, rfl, hk⟩
  have hkeys2 := compute_keys_all_rdg _ [-1] hl2num
  have happ2 : Transpose.process_app dictInv
      ((sortByKeys Transpose.child_key_le
        ((rs.map (Transpose.plain_rdg_mapped dict)).map Transpose.child_key_pair)).map
          (fun q => q.1)) =
      some ((sortByKeys Transpose.child_key_le ((((sortByKeys Transpose.child_key_le
        ((rs.map (Transpose.plain_rdg_mapped dict)).map Transpose.child_key_pair)).map
          (fun q => q.1)).map (Transpose.remap_plain dictInv)).map
            Transpose.child_key_pair)).map (fun q => q.1)) := by
    unfold Transpose.process_app
    simp only [hl2, hkeys2]
    rfl
  have htot : ∀ a b, Transpose.child_key_le a b = true ∨ Transpose.child_key_le b a = true := by
    intro a b
    exact lexLe_total a.2 b.2
  have htrans : ∀ a b c, Transpose.child_key_le a b = true → Transpose.child_key_le b c = true →
      Transpose.child_key_le a c = true := by
    intro a b c h1 h2
    exact lexLe_trans h1 h2
  have hkeyC : ∀ p : Str × Option Str × Str × Str,
      Transpose.child_key_pair (Transpose.plain_rdg p) =
      (Transpose.plain_rdg p,
        [1, Int.ofNat ((parseNat p.1).getD 0), 0, 0, 0, 0]) := by
    intro p
    rfl
  have hsortedC : ((rs.map Transpose.plain_rdg).map Transpose.child_key_pair).Pairwise
      (fun a b => Transpose.child_key_le a b = true) := by
    rw [List.map_map]
    refine List.Pairwise.map _ ?_ hsorted
    intro p q hpq
    show Transpose.child_key_le (Transpose.child_key_pair (Transpose.plain_rdg p))
      (Transpose.child_key_pair (Transpose.plain_rdg q)) = true
    rw [hkeyC, hkeyC]
    show lexLe [1, Int.ofNat ((parseNat p.1).getD 0), 0, 0, 0, 0]
      [1, Int.ofNat ((parseNat q.1).getD 0), 0, 0, 0, 0] = true
    exact (lexLe_plain _ _).mpr (Int.ofNat_le.mpr (le_of_lt hpq))
  have hneC : ((rs.map Transpose.plain_rdg).map Transpose.child_key_pair).Pairwise
      (fun a b => a.2 ≠ b.2) := by
    rw [List.map_map]
    refine List.Pairwise.map _ ?_ hsorted
    intro p q hpq
    show (Transpose.child_key_pair (Transpose.plain_rdg p)).2 ≠
      (Transpose.child_key_pair (Transpose.plain_rdg q)).2
    rw [hkeyC, hkeyC]
    intro hc
    simp only [List.cons.injEq] at hc
    exact absurd (Int.ofNat.inj hc.2.1) (Nat.ne_of_lt hpq)
  have hpermK : ((((sortByKeys Transpose.child_key_le
      ((rs.map (Transpose.plain_rdg_mapped dict)).map Transpose.child_key_pair)).map
        (fun q => q.1)).map (Transpose.remap_plain dictInv)).map
          Transpose.child_key_pair).Perm
      ((rs.map Transpose.plain_rdg).map Transpose.child_key_pair) :=
    hl2perm.map Transpose.child_key_pair
  have hperm2 : (sortByKeys Transpose.child_key_le ((((sortByKeys Transpose.child_key_le
      ((rs.map (Transpose.plain_rdg_mapped dict)).map Transpose.child_key_pair)).map
        (fun q => q.1)).map (Transpose.remap_plain dictInv)).map
          Transpose.child_key_pair)).Perm
      ((rs.map Transpose.plain_rdg).map Transpose.child_key_pair) :=
    (sortByKeys_perm Transpose.child_key_le _).trans hpermK
  have hanti : ∀ a ∈ sortByKeys Transpose.child_key_le ((((sortByKeys Transpose.child_key_le
      ((rs.map (Transpose.plain_rdg_mapped dict)).map Transpose.child_key_pair)).map
        (fun q => q.1)).map (Transpose.remap_plain dictInv)).map
          Transpose.child_key_pair),
      ∀ b ∈ sortByKeys Transpose.child_key_le ((((sortByKeys Transpose.child_key_le
      ((rs.map (Transpose.plain_rdg_mapped dict)).map Transpose.child_key_pair)).map
        (fun q => q.1)).map (Transpose.remap_plain dictInv)).map
          Transpose.child_key_pair),
      Transpose.child_key_le a b = true → Transpose.child_key_le b a = true → a = b := by
    intro a ha b hb h1 h2
    have hamem : a ∈ (rs.map Transpose.plain_rdg).map Transpose.child_key_pair :=
      hperm2.subset ha
    have hbmem : b ∈ (rs.map Transpose.plain_rdg).map Transpose.child_key_pair :=
      hperm2.subset hb
    have hkeq : a.2 = b.2 := lexLe_antisymm h1 h2
    exact pairwise_key_ne_inj (fun q => q.2) _ hneC a hamem b hbmem hkeq
  have hsorted2 := sortByKeys_pairwise Transpose.child_key_le htot htrans
    ((((sortByKeys Transpose.child_key_le
      ((rs.map (Transpose.plain_rdg_mapped dict)).map Transpose.child_key_pair)).map
        (fun q => q.1)).map (Transpose.remap_plain dictInv)).map
          Transpose.child_key_pair)
  have hfinal := eq_of_perm_of_pairwise Transpose.child_key_le _ _ hperm2 hsorted2
    hsortedC hanti
  rw [happ1]
  show Transpose.process_app dictInv _ = _
  rw [happ2, hfinal]
  rw [show (rs.map Transpose.plain_rdg).map Transpose.child_key_pair =
    (rs.map Transpose.plain_rdg).map
      (fun c => (c, Transpose.plain_rdg_key c)) from rfl]
  rw [map_fst_pairing]

/-- Witness for the C8 amended theorem: a two-reading unit in ascending order,
renumbered by the swap 1 <-> 2 (its own inverse), is restored exactly by the
round trip. -/
theorem c8_round_trip_restores_sorted_unit_witness :
    (Transpose.process_app [("1".toList, "2".toList), ("2".toList, "1".toList)]
        ([("1".toList, (none : Option Str), "a".toList, "c".toList),
          ("2".toList, (none : Option Str), "b".toList, "d".toList)].map
            Transpose.plain_rdg)).bind
      (Transpose.process_app
        [("1".toList, "2".toList), ("2".toList, "1".toList)]) =
      some ([("1".toList, (none : Option Str), "a".toList, "c".toList),
          ("2".toList, (none : Option Str), "b".toList, "d".toList)].map
            Transpose.plain_rdg) := by
  exact c8_round_trip_restores_sorted_unit
    [("1".toList, "2".toList), ("2".toList, "1".toList)]
    [("1".toList, "2".toList), ("2".toList, "1".toList)]
    [("1".toList, (none : Option Str), "a".toList, "c".toList),
     ("2".toList, (none : Option Str), "b".toList, "d".toList)]
    (by
      intro p hp
      simp only [List.mem_cons, List.not_mem_nil, or_false] at hp
      rcases hp with rfl | rfl
      exacts [⟨1, rfl⟩, ⟨2, rfl⟩])
    (by
      intro p hp
      simp only [List.mem_cons, List.not_mem_nil, or_false] at hp
      rcases hp with rfl | rfl
      exacts [⟨"2".toList, 2, rfl, rfl, rfl⟩, ⟨"1".toList, 1, rfl, rfl, rfl⟩])
    (by decide)
